import Mathlib

/-!
# go-instabl: package instability metrics

A shallow embedding of `go-instabl.go` and of the parts of the Go standard
library it calls (`strings.Replace`, `strings.Contains`, `path/filepath` on a
Unix platform, `sort.Strings`), followed by theorems about the embedded
program.  The definitions come first: the library, the program, the vocabulary
of the statements and sample inputs; the theorems follow.

Modelling conventions.

* A Go `string` is the list of its characters (`GoString`).  The path
  separator is `'/'` (Unix), so `filepath.ToSlash` is the identity.
* A Go `int` is a 64-bit two's complement integer: the counters of a
  `Stability` record are integers, and every addition on them stores the
  wrapped result (`wrapInt64`).  Records of the program have their counters
  between `minInt64` and `maxInt64`.
* The process environment is explicit: `Env` carries the result of
  `os.Getwd()` and of `os.Getenv("GOPATH")`.  `log.Fatal` is the result `none`.
* Loops of the standard library that advance through a string are recursive
  functions with a bound on the number of iterations; the callers pass the
  length of the string, and `cleanLoop_bound_irrelevant` and
  `replaceLoop_bound_irrelevant` show that this bound is never reached.
* `float64` values are rationals rounded to 53 significant bits, ties to even.
* The file system is a parameter (`FileSystem`): the result of `os.Stat`, the
  result of `parser.ParseFile` on a file, and the sequence of calls that
  `filepath.Walk` makes for a root.  The ways in which the process stops early
  are values: `Abort.fatal` for `log.Fatal`, `Abort.nilPointer` for the panic
  of a nil pointer dereference.  Log output is not modelled.
-/

namespace GoInstabl

/-- A Go string, as the list of its characters. -/
abbrev GoString := List Char

/-! ## package strings -/

namespace strings

/-- The scan of `strings.Replace(s, old, new, -1)` for a non-empty `old`: the
leftmost occurrence of `old` is replaced by `new` and the scan resumes right
behind it.  The first argument bounds the number of iterations; `s.length`
always suffices because every iteration consumes at least one character. -/
def replaceLoop (old new : GoString) : Nat → GoString → GoString
  | 0, s => s
  | fuel + 1, s =>
    if old.isPrefixOf s then
      new ++ replaceLoop old new fuel (s.drop old.length)
    else
      match s with
      | [] => []
      | c :: t => c :: replaceLoop old new fuel t

/-- The function `strings.Replace(s, old, new, -1)`: every non-overlapping
occurrence of `old` in `s` is replaced by `new`.  When `old` is empty, `new` is
inserted in front of every character and at the end. -/
def Replace (s old new : GoString) : GoString :=
  if old = new then s
  else if old = [] then new ++ s.flatMap (fun c => c :: new)
  else replaceLoop old new s.length s

/-- The function `strings.Contains(s, substr)`: `substr` occurs in `s`. -/
def Contains (s substr : GoString) : Bool :=
  match s with
  | [] => substr.isPrefixOf []
  | c :: t => substr.isPrefixOf (c :: t) || Contains t substr

/-- The function `strings.HasSuffix(s, suffix)`. -/
def HasSuffix (s suffix : GoString) : Bool :=
  suffix.isSuffixOf s

/-- The function `strings.Join(elems, sep)`. -/
def Join (elems : List GoString) (sep : GoString) : GoString :=
  match elems with
  | [] => []
  | [e] => e
  | e :: rest => e ++ sep ++ Join rest sep

end strings

/-! ## package path/filepath (Unix) -/

namespace filepath

/-- The constant `os.PathSeparator` on Unix. -/
def Separator : Char := '/'

/-- The function `os.IsPathSeparator`. -/
def IsPathSeparator (c : Char) : Bool := c == Separator

/-- The function `filepath.ToSlash`: on Unix the separator already is a slash. -/
def ToSlash (path : GoString) : GoString := path

/-- The backtracking loop of `Clean` for a `..` element, entered after the first
`out.w--`: `for out.w > dotdot && !os.IsPathSeparator(out.index(out.w)) { out.w-- }`.
The argument is the current `out.w`, the result the final one. -/
def backtrack (buf : GoString) (dotdot : Nat) : Nat → Nat
  | 0 => 0
  | w + 1 =>
    if dotdot < w + 1 && !IsPathSeparator (buf.getD (w + 1) Separator) then
      backtrack buf dotdot w
    else w + 1

/-- The main loop of `filepath.Clean`.  `p` is the unread part `path[r:]` of the
input, `buf` holds the `out.w` bytes written so far and `dotdot` is the index in
`buf` where `..` must stop.  The first argument bounds the number of
iterations; the length of the input suffices because every iteration reads at
least one byte. -/
def cleanLoop (rooted : Bool) : Nat → GoString → GoString → Nat → GoString
  | 0, _, buf, _ => buf
  | fuel + 1, p, buf, dotdot =>
    match p with
    | [] => buf
    | c :: t =>
      if IsPathSeparator c then
        -- empty path element
        cleanLoop rooted fuel t buf dotdot
      else if c == '.' && (t.isEmpty || IsPathSeparator (t.headD Separator)) then
        -- . element
        cleanLoop rooted fuel t buf dotdot
      else if c == '.' && t.head? == some '.' &&
          (t.tail.isEmpty || IsPathSeparator (t.tail.headD Separator)) then
        -- .. element: remove to last separator
        if dotdot < buf.length then
          -- can backtrack
          cleanLoop rooted fuel t.tail (buf.take (backtrack buf dotdot (buf.length - 1))) dotdot
        else if !rooted then
          -- cannot backtrack, but not rooted, so append .. element
          let buf1 := if 0 < buf.length then buf ++ [Separator] else buf
          let buf2 := buf1 ++ ['.', '.']
          cleanLoop rooted fuel t.tail buf2 buf2.length
        else
          cleanLoop rooted fuel t.tail buf dotdot
      else
        -- real path element; add slash if needed, then copy the element
        let buf1 :=
          if (rooted && buf.length != 1) || (!rooted && buf.length != 0) then buf ++ [Separator]
          else buf
        cleanLoop rooted fuel (p.dropWhile (fun x => !IsPathSeparator x))
          (buf1 ++ p.takeWhile (fun x => !IsPathSeparator x)) dotdot

/-- The function `filepath.Clean` on Unix (no volume names). -/
def Clean (path : GoString) : GoString :=
  match path with
  | [] => ['.']
  | c :: t =>
    let out :=
      if IsPathSeparator c then cleanLoop true path.length t [Separator] 1
      else cleanLoop false path.length path [] 0
    -- Turn empty string into "."
    if out.length = 0 then ['.'] else out

/-- The function `filepath.Join`: leading empty elements are skipped, the rest is
joined with the separator and cleaned; all elements empty gives the empty
string. -/
def Join (elem : List GoString) : GoString :=
  match elem with
  | [] => []
  | e :: rest => if e = [] then Join rest else Clean (strings.Join (e :: rest) [Separator])

/-- The scan of `filepath.Dir` for the last separator: the argument is the
reversed path, the result the reversed prefix `path[:i+1]` that ends with the
last separator (empty when there is none). -/
def dirPrefixRev : GoString → GoString
  | [] => []
  | c :: t => if IsPathSeparator c then c :: t else dirPrefixRev t

/-- The function `filepath.Dir` on Unix: everything up to and including the last
separator, cleaned. -/
def Dir (path : GoString) : GoString :=
  Clean (dirPrefixRev path.reverse).reverse

end filepath

/-! ## float64 arithmetic -/

/-- Rounding of a rational to the nearest integer, ties to the even one. -/
def roundHalfEven (q : ℚ) : ℤ :=
  let f := ⌊q⌋
  if q - f < 1 / 2 then f
  else if 1 / 2 < q - f then f + 1
  else if f % 2 = 0 then f else f + 1

/-- Rounding of a rational to the nearest number with a 53-bit significand,
ties to even: the rounding of IEEE-754 binary64 arithmetic.  The exponent range
is not modelled: the operands below are conversions of Go `int` values and
quotients of such, which neither overflow nor underflow. -/
def round53 (x : ℚ) : ℚ :=
  if x = 0 then 0
  else
    let ulp : ℚ := (2 : ℚ) ^ (Int.log 2 |x| - 52)
    (roundHalfEven (x / ulp) : ℚ) * ulp

/-- A `float64` value: a finite number (the sign of zero kept apart), an
infinity or a NaN. -/
inductive F64 where
  | fin (q : ℚ)
  | negZero
  | inf (neg : Bool)
  | nan
deriving DecidableEq

/-- The conversion `float64(n)` of a Go `int`. -/
def float64OfInt (n : Int) : ℚ := round53 (n : ℚ)

/-- The `float64` sum of two finite values (a zero sum is `+0`). -/
def float64Add (a b : ℚ) : ℚ := round53 (a + b)

/-- The `float64` quotient of two finite values, none of them `-0`. -/
def float64Div (a b : ℚ) : F64 :=
  if b = 0 then
    if a = 0 then F64.nan else F64.inf (decide (a < 0))
  else if a = 0 then
    if b < 0 then F64.negZero else F64.fin 0
  else F64.fin (round53 (a / b))

/-- The verb `%.2f` of `fmt.Sprintf` on a `float64`: the value rounded to two
decimals, ties to even. -/
def formatFloat2 : F64 → GoString
  | F64.nan => "NaN".toList
  | F64.inf true => "-Inf".toList
  | F64.inf false => "+Inf".toList
  | F64.negZero => "-0.00".toList
  | F64.fin q =>
    let m := (roundHalfEven (|q| * 100)).toNat
    let frac := m % 100
    (if q < 0 then ['-'] else []) ++ (Nat.repr (m / 100)).toList ++ ['.'] ++
      (Nat.repr (frac / 10)).toList ++ (Nat.repr (frac % 10)).toList

/-! ## package sort -/

/-- Go's comparison `a <= b` of two strings: lexicographic on the bytes, which
for UTF-8 text is the lexicographic order on the code points of the characters. -/
def stringLe : GoString → GoString → Bool
  | [], _ => true
  | _ :: _, [] => false
  | a :: as, b :: bs =>
    if a.toNat < b.toNat then true else if b.toNat < a.toNat then false else stringLe as bs

/-- The function `sort.Strings`: the list put in increasing order. -/
def sortStrings (lst : List GoString) : List GoString :=
  lst.insertionSort (fun a b => stringLe a b = true)

/-! ## go-instabl.go -/

/-- The largest Go `int`, `math.MaxInt64`. -/
def maxInt64 : Int := 9223372036854775807

/-- The smallest Go `int`, `math.MinInt64`. -/
def minInt64 : Int := -9223372036854775808

/-- The Go `int` that 64-bit two's complement arithmetic stores for the
mathematical result `x` of an addition: `x` reduced modulo `2^64` into the range
from `minInt64` to `maxInt64`. -/
def wrapInt64 (x : Int) : Int :=
  (x + 9223372036854775808) % 18446744073709551616 - 9223372036854775808

/-- The struct `Stability`: incoming (`FanIn`) and outgoing (`FanOut`)
dependencies, two Go `int` counters. -/
structure Stability where
  FanIn : Int
  FanOut : Int
deriving DecidableEq, Repr

/-- The method `Stability.Instability`; the sum in the guard is a Go `int`
addition. -/
def Stability.Instability (s : Stability) : F64 :=
  if wrapInt64 (s.FanIn + s.FanOut) = 0 then F64.fin 0
  else float64Div (float64OfInt s.FanOut) (float64Add (float64OfInt s.FanIn) (float64OfInt s.FanOut))

/-- The type `Stats`, a Go `map[string]Stability`: finitely many entries with
pairwise distinct keys.  The order of the entries is the order in which a
`range` loop happens to visit them. -/
abbrev Stats := AList (fun _ : GoString => Stability)

/-- The map read `stats[k]`: the zero value for an absent key. -/
def Stats.get (stats : Stats) (k : GoString) : Stability :=
  (stats.lookup k).getD ⟨0, 0⟩

/-- The map write `stats[k] = v`. -/
def Stats.set (stats : Stats) (k : GoString) (v : Stability) : Stats :=
  stats.insert k v

/-- The process environment: the result of `os.Getwd()` (`none` for an error)
and of `os.Getenv("GOPATH")` (empty when unset). -/
structure Env where
  getwd : Option GoString
  gopath : GoString

/-- The function `getPackage`; `none` is the exit through `log.Fatal`. -/
def getPackage (env : Env) (fname : GoString) : Option GoString :=
  match env.getwd with
  | none => none
  | some cwd =>
    let file := filepath.ToSlash (filepath.Clean (filepath.Join [cwd, ".".toList, fname]))
    let root := filepath.ToSlash (filepath.Clean (filepath.Join [env.gopath, "src".toList]))
    let dir := filepath.ToSlash (filepath.Dir (strings.Replace file (root ++ "/".toList) []))
    some dir

/-- The struct `Analyzer`. -/
structure Analyzer where
  stats : Stats
  repo : GoString

/-- The method `Analyzer.GetStats`. -/
def Analyzer.GetStats (a : Analyzer) : Stats := a.stats

/-- The method `Analyzer.inPackage`; `none` when `getPackage` exits. -/
def Analyzer.inPackage (env : Env) (a : Analyzer) (imp : GoString) : Option Bool :=
  match getPackage env a.repo with
  | none => none
  | some pkg => some (strings.Contains imp pkg)

/-- The method `Analyzer.isVendor`. -/
def Analyzer.isVendor (a : Analyzer) (path : GoString) : Bool :=
  strings.Contains
    (filepath.ToSlash (filepath.Clean path))
    (filepath.ToSlash (filepath.Clean (filepath.Join [a.repo, "vendor".toList])))

/-- The body of the `for _, imp := range f.Imports` loop of
`Analyzer.analyzeFile`, for the file `fname` and the import whose path literal
is `impPathValue`; `none` when `getPackage` exits the process. -/
def Analyzer.analyzeFileBody (env : Env) (a : Analyzer) (fname impPathValue : GoString) :
    Option Analyzer :=
  match getPackage env fname with
  | none => none
  | some fo =>
    let fi := strings.Replace impPathValue ['"'] []
    let st := a.stats.get fo
    match a.inPackage env fi with
    | none => none
    | some false => some { a with stats := a.stats.set fo st }
    | some true =>
      let st1 : Stability := { st with FanOut := wrapInt64 (st.FanOut + 1) }
      let stats1 := a.stats.set fo st1
      let st2 := stats1.get fi
      let st3 : Stability := { st2 with FanIn := wrapInt64 (st2.FanIn + 1) }
      some { a with stats := stats1.set fi st3 }

/-- The `for _, imp := range f.Imports` loop of `Analyzer.analyzeFile`. -/
def Analyzer.analyzeFileLoop (env : Env) (a : Analyzer) (fname : GoString) :
    List GoString → Option Analyzer
  | [] => some a
  | imp :: rest =>
    match a.analyzeFileBody env fname imp with
    | none => none
    | some a1 => a1.analyzeFileLoop env fname rest

/-- A run of loop bodies for a sequence of (file name, import path literal)
pairs, as the walk over a tree performs them one after the other. -/
def Analyzer.analyzeSteps (env : Env) (a : Analyzer) :
    List (GoString × GoString) → Option Analyzer
  | [] => some a
  | (fname, imp) :: rest =>
    match a.analyzeFileBody env fname imp with
    | none => none
    | some a1 => a1.analyzeSteps env rest

/-- The lines that `Report` collects in `lst`, in the order in which the
`range` loop visits the map. -/
def reportLst (stats : Stats) : List GoString :=
  stats.entries.map (fun e => formatFloat2 e.2.Instability ++ ['\t'] ++ e.1)

/-- The lines that `Report` prints: `lst` after `sort.Strings`. -/
def reportLines (stats : Stats) : List GoString :=
  sortStrings (reportLst stats)

/-- The function `Report`: the text written to standard output. -/
def Report (stats : Stats) : GoString :=
  strings.Join (reportLines stats) ['\n'] ++ ['\n']

/-- The sum of `FanOut` over all records of the table. -/
def Stats.sumFanOut (s : Stats) : Int :=
  (s.entries.map (fun e => e.2.FanOut)).sum

/-- The sum of `FanIn` over all records of the table. -/
def Stats.sumFanIn (s : Stats) : Int :=
  (s.entries.map (fun e => e.2.FanIn)).sum

/-- The number of imports in a sequence of (file name, import path literal)
pairs that `inPackage` classifies as local. -/
def countLocal (env : Env) (a : Analyzer) (steps : List (GoString × GoString)) : Nat :=
  (steps.filter (fun s => decide (a.inPackage env (strings.Replace s.2 ['"'] []) = some true))).length

/-! ## The file system, the parser and the walk -/

/-- What the program reads of an `os.FileInfo`. -/
structure FileInfo where
  IsDir : Bool
deriving DecidableEq

/-- The result `(f, err)` of `parser.ParseFile(fset, fname, nil, 0)`, as far as
`analyzeFile` reads it: the path literals `imp.Path.Value` of `f.Imports`.
The parser returns a nil `f` only together with an error, when the source
could not be read; after syntax errors it returns a partial tree. -/
inductive ParseResult where
  | ok (imports : List GoString)
  | syntaxErrors (imports : List GoString)
  | unreadable
deriving DecidableEq

/-- One call `fn(path, info, err)` that `filepath.Walk` makes: for an entry it
could not read (`err != nil`) or for an entry with its `os.FileInfo`. -/
inductive WalkEntry where
  | failed (path : GoString)
  | found (path : GoString) (info : FileInfo)
deriving DecidableEq

/-- The file system as the program observes it: `os.Stat` (`none` for an
error), the parser on the content of a file, and the calls that
`filepath.Walk` on a root makes, in order, as long as the walk function
returns nil. -/
structure FileSystem where
  stat : GoString → Option FileInfo
  parseFile : GoString → ParseResult
  walk : GoString → List WalkEntry

/-- The ways in which the process aborts: `log.Fatal`, or the runtime panic of
a nil pointer dereference. -/
inductive Abort where
  | fatal
  | nilPointer
deriving DecidableEq

/-- The function `isDir`. -/
def isDir (fs : FileSystem) (filename : GoString) : Bool :=
  match fs.stat filename with
  | some fi => fi.IsDir
  | none => false

/-- The function `NewAnalyzer`; the error is the message of `fmt.Errorf`. -/
def NewAnalyzer (fs : FileSystem) (repo : GoString) : Except GoString Analyzer :=
  if !isDir fs repo then
    Except.error ("provided repo '".toList ++ repo ++ "' is not a folder".toList)
  else
    Except.ok { stats := ∅, repo := repo }

/-- The method `Analyzer.analyzeFile`.  When the parser returns a nil `f`, the
error is logged and `f.Imports` dereferences the nil pointer. -/
def Analyzer.analyzeFile (env : Env) (fs : FileSystem) (a : Analyzer) (fname : GoString) :
    Except Abort Analyzer :=
  match fs.parseFile fname with
  | ParseResult.unreadable => Except.error Abort.nilPointer
  | ParseResult.ok imports | ParseResult.syntaxErrors imports =>
    match a.analyzeFileLoop env fname imports with
    | none => Except.error Abort.fatal
    | some a1 => Except.ok a1

/-- The walk function that `Analyzer.analyzeDir` passes to `filepath.Walk`: the
analyzer after the call, and whether the function returns a non-nil error. -/
def Analyzer.walkFn (env : Env) (fs : FileSystem) (a : Analyzer) :
    WalkEntry → Except Abort (Analyzer × Bool)
  | WalkEntry.failed _ => Except.ok (a, true)
  | WalkEntry.found path info =>
    if !info.IsDir && !a.isVendor path && strings.HasSuffix path ".go".toList then
      match a.analyzeFile env fs path with
      | Except.error x => Except.error x
      | Except.ok a1 => Except.ok (a1, false)
    else Except.ok (a, false)

/-- The calls of `filepath.Walk` one after the other: the walk stops at the
first call that returns an error. -/
def Analyzer.walkLoop (env : Env) (fs : FileSystem) (a : Analyzer) :
    List WalkEntry → Except Abort Analyzer
  | [] => Except.ok a
  | e :: rest =>
    match a.walkFn env fs e with
    | Except.error x => Except.error x
    | Except.ok (a1, true) => Except.ok a1
    | Except.ok (a1, false) => a1.walkLoop env fs rest

/-- The method `Analyzer.analyzeDir`. -/
def Analyzer.analyzeDir (env : Env) (fs : FileSystem) (a : Analyzer) (dirname : GoString) :
    Except Abort Analyzer :=
  a.walkLoop env fs (fs.walk (dirname ++ [filepath.Separator]))

/-- The method `Analyzer.Analyze`. -/
def Analyzer.Analyze (env : Env) (fs : FileSystem) (a : Analyzer) : Except Abort Analyzer :=
  if isDir fs a.repo then a.analyzeDir env fs a.repo
  else a.analyzeFile env fs a.repo

/-- How a run of the program ends: `os.Exit` with a code after a message on
standard error, an abort, or the report on standard output. -/
inductive RunResult where
  | exit (code : Nat) (stderr : GoString)
  | aborted (cause : Abort)
  | reported (stdout : GoString)
deriving DecidableEq

/-- The function `main` on the arguments `os.Args`. -/
def main (env : Env) (fs : FileSystem) (args : List GoString) : RunResult :=
  match args with
  | [_, repo] =>
    match NewAnalyzer fs repo with
    | Except.error err =>
      RunResult.exit 2 ("analyze failed: ".toList ++ err ++ ['\n'])
    | Except.ok anlzr =>
      match anlzr.Analyze env fs with
      | Except.error x => RunResult.aborted x
      | Except.ok a1 => RunResult.reported (Report a1.GetStats)
  | _ => RunResult.exit 1 ("usage: ".toList ++ args.headD [] ++ " <repository>\n".toList)

/-- The path that `filepath.Walk` passes for the entry reached from `root`
through the directory entries `names`: every level is
`filepath.Join(path, name)`. -/
def walkPath (root : GoString) (names : List GoString) : GoString :=
  names.foldl (fun path name => filepath.Join [path, name]) root

/-! ## Vocabulary of the statements about the table -/

/-- One Go `int` increment `x++`, performed when `b` holds. -/
def incr (b : Bool) (x : Int) : Int :=
  if b then wrapInt64 (x + 1) else x

/-- The update of one record: the record under `k` is read (the zero value when
absent), `FanIn` is incremented when `incIn` holds, `FanOut` when `incOut`
holds, and the record is written back. -/
def Stats.bump (s : Stats) (k : GoString) (incIn incOut : Bool) : Stats :=
  s.set k ⟨incr incIn (s.get k).FanIn, incr incOut (s.get k).FanOut⟩

/-- The record updates of one loop body of `analyzeFile`, for the owner `fo` and
the import path `fi`: for a local import the fan-out of the owner, then the
fan-in of the import; for an external one the owner's record, with nothing
incremented. -/
def stepOps (fo fi : GoString) (isLocal : Bool) : List (GoString × Bool × Bool) :=
  if isLocal then [(fo, false, true), (fi, true, false)] else [(fo, false, false)]

/-- A sequence of record updates, one after the other. -/
def Stats.applyBumps (s : Stats) (ops : List (GoString × Bool × Bool)) : Stats :=
  ops.foldl (fun t o => t.bump o.1 o.2.1 o.2.2) s

/-- Two tables are the same map: every key has the same record, or none, in
both.  The entries may be enumerated in different orders. -/
def Stats.SameMap (s t : Stats) : Prop := ∀ k, s.lookup k = t.lookup k

/-- The record updates of the loop body for one (file name, import path
literal) pair, in the environment `env` for the repository `repo`; empty when
`getPackage` exits. -/
def bodyOps (env : Env) (repo : GoString) (st : GoString × GoString) :
    List (GoString × Bool × Bool) :=
  match getPackage env st.1, getPackage env repo with
  | some fo, some pkg =>
    stepOps fo (strings.Replace st.2 ['"'] [])
      (strings.Contains (strings.Replace st.2 ['"'] []) pkg)
  | _, _ => []

/-- Every record of the table has its `FanIn` between zero and `mi` and its
`FanOut` between zero and `mo`. -/
def Stats.Bounded (s : Stats) (mi mo : Nat) : Prop :=
  ∀ k v, s.lookup k = some v → (0 ≤ v.FanIn ∧ v.FanIn ≤ mi) ∧ (0 ≤ v.FanOut ∧ v.FanOut ≤ mo)

/-- Every record of `s` is still present in `t`, with counters at least as
high. -/
def Stats.GrowsTo (s t : Stats) : Prop :=
  ∀ k v, s.lookup k = some v →
    ∃ v1, t.lookup k = some v1 ∧ v.FanIn ≤ v1.FanIn ∧ v.FanOut ≤ v1.FanOut

/-! ## Vocabulary of the statements about paths -/

/-- A path is slash-ended when it is empty or its last character is the
separator. -/
def SlashEnded (q : GoString) : Prop := ∀ c ∈ q.getLast?, c = '/'

/-- A plain file name: not empty, without a separator, and neither `.` nor
`..`. -/
def plainName (f : GoString) : Bool :=
  f != [] && !f.contains '/' && f != ['.'] && f != ['.', '.']

namespace filepath

/-- The invariant of the loop of `Clean` on a rooted path: the buffer starts
with the separator and `dotdot` protects it. -/
def RootedInv (rooted : Bool) (buf : GoString) (dotdot : Nat) : Prop :=
  rooted = true → buf.head? = some '/' ∧ 1 ≤ dotdot

/-- The buffer to which the loop of `Clean` appends a real path element. -/
def withSeparator (rooted : Bool) (buf : GoString) : GoString :=
  if (rooted && buf.length != 1) || (!rooted && buf.length != 0) then buf ++ [Separator] else buf

/-- The part of a non-empty path that the loop of `Clean` reads: for a rooted
path, what follows the leading separator. -/
def loopInput (rooted : Bool) (path : GoString) : GoString :=
  if rooted then path.tail else path

/-- The buffer with which `Clean` enters its loop. -/
def initBuf (rooted : Bool) : GoString :=
  if rooted then [Separator] else []

/-- The value of `dotdot` with which `Clean` enters its loop. -/
def initDotdot (rooted : Bool) : Nat :=
  if rooted then 1 else 0

/-- The states `(buf, dotdot)` that the loop of `Clean` can be in between two
path elements: the initial state of a rooted or of a relative path, a relative
state whose buffer consists of `..` elements only, extended by one more `..`,
and a state extended by one real path element `e`. -/
inductive CleanState (rooted : Bool) : GoString → Nat → Prop where
  | rootedInit : rooted = true → CleanState rooted [Separator] 1
  | relInit : rooted = false → CleanState rooted [] 0
  | dots {buf : GoString} : rooted = false → CleanState rooted buf buf.length →
      CleanState rooted ((if 0 < buf.length then buf ++ [Separator] else buf) ++ ['.', '.'])
        ((if 0 < buf.length then buf ++ [Separator] else buf) ++ ['.', '.']).length
  | push {buf : GoString} {dotdot : Nat} {e : GoString} : CleanState rooted buf dotdot →
      plainName e = true → CleanState rooted (withSeparator rooted buf ++ e) dotdot

end filepath

/-! ## Sample inputs -/

/-- A sample environment: the working directory is the home directory of a
user, the workspace is `/go`. -/
def homeEnv : Env := ⟨some "/home/u".toList, "/go".toList⟩

/-- A sample environment: the working directory is the repository
`github.com/u/r` inside the workspace `/go`. -/
def sampleEnv : Env := ⟨some "/go/src/github.com/u/r".toList, "/go".toList⟩

/-- An analyzer of the repository `.` with an empty table. -/
def sampleAnalyzer : Analyzer := ⟨∅, ".".toList⟩

/-- An analyzer of the repository `.` whose table holds the package
`github.com/u/r/a` with the fan-out `maxInt64`. -/
def maxOutAnalyzer : Analyzer :=
  ⟨AList.singleton "github.com/u/r/a".toList ⟨0, maxInt64⟩, ".".toList⟩

/-- An analyzer of the repository `.` whose table holds the package
`github.com/u/r/b` with the fan-in `maxInt64`. -/
def maxInAnalyzer : Analyzer :=
  ⟨AList.singleton "github.com/u/r/b".toList ⟨maxInt64, 0⟩, ".".toList⟩

/-- A run of `n` loop bodies for the file `a/x.go` of the package
`github.com/u/r/a` and an import of that same package. -/
def selfLoopRun (n : Nat) : List (GoString × GoString) :=
  List.replicate n ("a/x.go".toList, "\"github.com/u/r/a\"".toList)

/-- A sample tree: the directory `.` holds the regular file `a.go`, which
cannot be read. -/
def unreadableFs : FileSystem where
  stat := fun p => if p = ".".toList then some ⟨true⟩ else if p = "a.go".toList then some ⟨false⟩ else none
  parseFile := fun _ => ParseResult.unreadable
  walk := fun _ => [WalkEntry.found "./".toList ⟨true⟩, WalkEntry.found "a.go".toList ⟨false⟩]

/-- A sample tree: the directory `.` holds the regular file
`cmd/vendoring/main.go`, which declares the local package `github.com/u/r/b`
among its dependencies. -/
def vendoringFs : FileSystem where
  stat := fun p =>
    if p = ".".toList then some ⟨true⟩
    else if p = "cmd".toList then some ⟨true⟩
    else if p = "cmd/vendoring".toList then some ⟨true⟩
    else if p = "cmd/vendoring/main.go".toList then some ⟨false⟩ else none
  parseFile := fun _ => ParseResult.ok ["\"github.com/u/r/b\"".toList]
  walk := fun _ => [WalkEntry.found "./".toList ⟨true⟩, WalkEntry.found "cmd".toList ⟨true⟩,
    WalkEntry.found "cmd/vendoring".toList ⟨true⟩,
    WalkEntry.found "cmd/vendoring/main.go".toList ⟨false⟩]

/-- A sample tree: the directory `.` holds the regular file `a/x.go`, a source
file without imports. -/
def noImportFs : FileSystem where
  stat := fun p =>
    if p = ".".toList then some ⟨true⟩
    else if p = "a".toList then some ⟨true⟩
    else if p = "a/x.go".toList then some ⟨false⟩ else none
  parseFile := fun _ => ParseResult.ok []
  walk := fun _ => [WalkEntry.found "./".toList ⟨true⟩, WalkEntry.found "a".toList ⟨true⟩,
    WalkEntry.found "a/x.go".toList ⟨false⟩]

/-! ## The stats table under one loop body -/

theorem Stats.lookup_set_self (s : Stats) (k : GoString) (v : Stability) :
    (s.set k v).lookup k = some v := by
  simp [Stats.set]

theorem Stats.lookup_set_ne (s : Stats) {k k' : GoString} (v : Stability) (h : k' ≠ k) :
    (s.set k v).lookup k' = s.lookup k' := by
  simp [Stats.set, AList.lookup_insert_ne h]

theorem Stats.get_set_self (s : Stats) (k : GoString) (v : Stability) :
    (s.set k v).get k = v := by
  simp [Stats.get, Stats.lookup_set_self]

theorem Stats.get_set_ne (s : Stats) {k k' : GoString} (v : Stability) (h : k' ≠ k) :
    (s.set k v).get k' = s.get k' := by
  simp [Stats.get, Stats.lookup_set_ne s v h]

theorem wrapInt64_of_range {x : Int} (h1 : minInt64 ≤ x) (h2 : x ≤ maxInt64) :
    wrapInt64 x = x := by
  unfold wrapInt64
  unfold minInt64 at h1
  unfold maxInt64 at h2
  omega

theorem wrapInt64_succ {x : Int} (h1 : minInt64 ≤ x) (h2 : x < maxInt64) :
    wrapInt64 (x + 1) = x + 1 := by
  apply wrapInt64_of_range
  · unfold minInt64 at h1 ⊢; omega
  · unfold maxInt64 at h2 ⊢; omega

/-- The loop body on a local import, in closed form. -/
theorem analyzeFileBody_of_local {env : Env} {a : Analyzer} {fname imp fo : GoString}
    (hfo : getPackage env fname = some fo)
    (hloc : a.inPackage env (strings.Replace imp ['"'] []) = some true) :
    a.analyzeFileBody env fname imp =
      some (Analyzer.mk
        ((a.stats.set fo ⟨(a.stats.get fo).FanIn, wrapInt64 ((a.stats.get fo).FanOut + 1)⟩).set
          (strings.Replace imp ['"'] [])
          ⟨wrapInt64 (((a.stats.set fo
              ⟨(a.stats.get fo).FanIn, wrapInt64 ((a.stats.get fo).FanOut + 1)⟩).get
              (strings.Replace imp ['"'] [])).FanIn + 1),
            ((a.stats.set fo
              ⟨(a.stats.get fo).FanIn, wrapInt64 ((a.stats.get fo).FanOut + 1)⟩).get
              (strings.Replace imp ['"'] [])).FanOut⟩)
        a.repo) := by
  simp only [Analyzer.analyzeFileBody, hfo, hloc]

/-- The loop body on an external import, in closed form. -/
theorem analyzeFileBody_of_external {env : Env} {a : Analyzer} {fname imp fo : GoString}
    (hfo : getPackage env fname = some fo)
    (hext : a.inPackage env (strings.Replace imp ['"'] []) = some false) :
    a.analyzeFileBody env fname imp = some (Analyzer.mk (a.stats.set fo (a.stats.get fo)) a.repo) := by
  simp only [Analyzer.analyzeFileBody, hfo, hext]

/-- C1, as stated, fails: in a table where the owner `github.com/u/r/a` has the
fan-out `maxInt64`, the loop body for a local import of `github.com/u/r/b`
leaves the owner with the fan-out `minInt64`, which is not one more than
before. -/
theorem local_edge_wraps_at_maxInt64 :
    ∃ a1, maxOutAnalyzer.analyzeFileBody sampleEnv "a/x.go".toList
        "\"github.com/u/r/b\"".toList = some a1 ∧
      maxOutAnalyzer.stats.get "github.com/u/r/a".toList = ⟨0, maxInt64⟩ ∧
      a1.stats.lookup "github.com/u/r/a".toList = some ⟨0, minInt64⟩ ∧
      minInt64 ≠ maxInt64 + 1 := by
  refine ⟨_, @analyzeFileBody_of_local _ _ _ _ "github.com/u/r/a".toList (by decide) (by decide),
    by decide, ?_, by decide⟩
  simp only []
  rw [Stats.lookup_set_ne _ _ (by decide), Stats.lookup_set_self]
  decide

/-- C1, amended: for a local import edge from the owner `A` to a different
package `B`, in a table of Go `int` records where the fan-out of `A` and the
fan-in of `B` are below `maxInt64`, one loop body of `analyzeFile` leaves `A`
with the fan-out one higher and the fan-in unchanged, `B` with the fan-in one
higher and the fan-out unchanged (an absent record counting as zero), and every
record under another key as it was. -/
theorem analyzeFileBody_local_edge (env : Env) (a : Analyzer) (fname imp A B : GoString)
    (hA : getPackage env fname = some A)
    (hB : strings.Replace imp ['"'] [] = B)
    (hloc : a.inPackage env B = some true)
    (hne : A ≠ B)
    (hout : minInt64 ≤ (a.stats.get A).FanOut ∧ (a.stats.get A).FanOut < maxInt64)
    (hin : minInt64 ≤ (a.stats.get B).FanIn ∧ (a.stats.get B).FanIn < maxInt64) :
    ∃ a1, a.analyzeFileBody env fname imp = some a1 ∧
      a1.stats.lookup A = some ⟨(a.stats.get A).FanIn, (a.stats.get A).FanOut + 1⟩ ∧
      a1.stats.lookup B = some ⟨(a.stats.get B).FanIn + 1, (a.stats.get B).FanOut⟩ ∧
      ∀ k, k ≠ A → k ≠ B → a1.stats.lookup k = a.stats.lookup k := by
  subst hB
  refine ⟨_, analyzeFileBody_of_local hA hloc, ?_, ?_, ?_⟩
  · simp only []
    rw [Stats.lookup_set_ne _ _ hne, Stats.lookup_set_self, wrapInt64_succ hout.1 hout.2]
  · simp only []
    rw [Stats.lookup_set_self, Stats.get_set_ne _ _ (Ne.symm hne), wrapInt64_succ hin.1 hin.2]
  · intro k hkA hkB
    simp only []
    rw [Stats.lookup_set_ne _ _ hkB, Stats.lookup_set_ne _ _ hkA]

/-- The statement of C1, amended, on the file `a/x.go` that imports
`github.com/u/r/b`, with an empty table. -/
theorem analyzeFileBody_local_edge_witness :
    ∃ a1, sampleAnalyzer.analyzeFileBody sampleEnv "a/x.go".toList
        "\"github.com/u/r/b\"".toList = some a1 ∧
      a1.stats.lookup "github.com/u/r/a".toList =
        some ⟨(sampleAnalyzer.stats.get "github.com/u/r/a".toList).FanIn,
          (sampleAnalyzer.stats.get "github.com/u/r/a".toList).FanOut + 1⟩ ∧
      a1.stats.lookup "github.com/u/r/b".toList =
        some ⟨(sampleAnalyzer.stats.get "github.com/u/r/b".toList).FanIn + 1,
          (sampleAnalyzer.stats.get "github.com/u/r/b".toList).FanOut⟩ ∧
      ∀ k, k ≠ "github.com/u/r/a".toList → k ≠ "github.com/u/r/b".toList →
        a1.stats.lookup k = sampleAnalyzer.stats.lookup k :=
  analyzeFileBody_local_edge sampleEnv sampleAnalyzer "a/x.go".toList
    "\"github.com/u/r/b\"".toList "github.com/u/r/a".toList "github.com/u/r/b".toList
    (by decide) (by decide) (by decide) (by decide) (by decide) (by decide)

/-- C2: for an external import, one loop body of `analyzeFile` leaves every
existing record as it was, creates no record under a key other than the owner
`A`, and leaves `A` with the record it had, or with a new zero record if it had
none. -/
theorem analyzeFileBody_external (env : Env) (a : Analyzer) (fname imp A : GoString)
    (hA : getPackage env fname = some A)
    (hext : a.inPackage env (strings.Replace imp ['"'] []) = some false) :
    ∃ a1, a.analyzeFileBody env fname imp = some a1 ∧
      (∀ k v, a.stats.lookup k = some v → a1.stats.lookup k = some v) ∧
      (∀ k, k ≠ A → a1.stats.lookup k = a.stats.lookup k) ∧
      a1.stats.lookup A = some ((a.stats.lookup A).getD ⟨0, 0⟩) := by
  refine ⟨_, analyzeFileBody_of_external hA hext, ?_, ?_, ?_⟩
  · intro k v hk
    simp only []
    by_cases hkA : k = A
    · subst hkA
      rw [Stats.lookup_set_self, Stats.get, hk, Option.getD_some]
    · rw [Stats.lookup_set_ne _ _ hkA, hk]
  · intro k hkA
    simp only []
    rw [Stats.lookup_set_ne _ _ hkA]
  · simp only []
    rw [Stats.lookup_set_self, Stats.get]

/-- The statement of C2 on the file `a/x.go` that imports `fmt`. -/
theorem analyzeFileBody_external_witness :
    ∃ a1, sampleAnalyzer.analyzeFileBody sampleEnv "a/x.go".toList "\"fmt\"".toList = some a1 ∧
      (∀ k v, sampleAnalyzer.stats.lookup k = some v → a1.stats.lookup k = some v) ∧
      (∀ k, k ≠ "github.com/u/r/a".toList →
        a1.stats.lookup k = sampleAnalyzer.stats.lookup k) ∧
      a1.stats.lookup "github.com/u/r/a".toList =
        some ((sampleAnalyzer.stats.lookup "github.com/u/r/a".toList).getD ⟨0, 0⟩) :=
  analyzeFileBody_external sampleEnv sampleAnalyzer "a/x.go".toList "\"fmt\"".toList
    "github.com/u/r/a".toList (by decide) (by decide)

/-- C3, as stated, fails: in a table where the package `github.com/u/r/a` has the
fan-out `maxInt64`, the loop body for a file of that package that imports the
package itself leaves it with the fan-out `minInt64`, not one more than
before. -/
theorem self_loop_wraps_at_maxInt64 :
    ∃ a1, maxOutAnalyzer.analyzeFileBody sampleEnv "a/x.go".toList
        "\"github.com/u/r/a\"".toList = some a1 ∧
      maxOutAnalyzer.stats.get "github.com/u/r/a".toList = ⟨0, maxInt64⟩ ∧
      a1.stats.lookup "github.com/u/r/a".toList = some ⟨1, minInt64⟩ ∧
      minInt64 ≠ maxInt64 + 1 := by
  refine ⟨_, @analyzeFileBody_of_local _ _ _ _ "github.com/u/r/a".toList (by decide) (by decide),
    by decide, ?_, by decide⟩
  simp only []
  have hk : strings.Replace "\"github.com/u/r/a\"".toList ['"'] [] =
      "github.com/u/r/a".toList := by decide
  rw [hk, Stats.lookup_set_self, Stats.get_set_self]
  decide

/-- C3, amended: when the owner and the locally classified import path are the
same identifier `A`, in a table of Go `int` records where the fan-in and the
fan-out of `A` are below `maxInt64`, one loop body of `analyzeFile` raises both
the fan-in and the fan-out of `A` by one and leaves every other record as it
was. -/
theorem analyzeFileBody_self_loop (env : Env) (a : Analyzer) (fname imp A : GoString)
    (hA : getPackage env fname = some A)
    (hB : strings.Replace imp ['"'] [] = A)
    (hloc : a.inPackage env A = some true)
    (hout : minInt64 ≤ (a.stats.get A).FanOut ∧ (a.stats.get A).FanOut < maxInt64)
    (hin : minInt64 ≤ (a.stats.get A).FanIn ∧ (a.stats.get A).FanIn < maxInt64) :
    ∃ a1, a.analyzeFileBody env fname imp = some a1 ∧
      a1.stats.lookup A = some ⟨(a.stats.get A).FanIn + 1, (a.stats.get A).FanOut + 1⟩ ∧
      ∀ k, k ≠ A → a1.stats.lookup k = a.stats.lookup k := by
  have hloc1 : a.inPackage env (strings.Replace imp ['"'] []) = some true := by rw [hB]; exact hloc
  refine ⟨_, analyzeFileBody_of_local hA hloc1, ?_, ?_⟩
  · simp only []
    rw [hB, Stats.lookup_set_self, Stats.get_set_self, wrapInt64_succ hout.1 hout.2,
      wrapInt64_succ hin.1 hin.2]
  · intro k hkA
    simp only []
    rw [hB, Stats.lookup_set_ne _ _ hkA, Stats.lookup_set_ne _ _ hkA]

/-- The statement of C3, amended, on the file `a/x.go` that imports its own
package `github.com/u/r/a`, with an empty table. -/
theorem analyzeFileBody_self_loop_witness :
    ∃ a1, sampleAnalyzer.analyzeFileBody sampleEnv "a/x.go".toList
        "\"github.com/u/r/a\"".toList = some a1 ∧
      a1.stats.lookup "github.com/u/r/a".toList =
        some ⟨(sampleAnalyzer.stats.get "github.com/u/r/a".toList).FanIn + 1,
          (sampleAnalyzer.stats.get "github.com/u/r/a".toList).FanOut + 1⟩ ∧
      ∀ k, k ≠ "github.com/u/r/a".toList →
        a1.stats.lookup k = sampleAnalyzer.stats.lookup k :=
  analyzeFileBody_self_loop sampleEnv sampleAnalyzer "a/x.go".toList
    "\"github.com/u/r/a\"".toList "github.com/u/r/a".toList (by decide) (by decide) (by decide)
    (by decide) (by decide)

/-! ## Fan-in and fan-out balance -/

theorem sum_kerase_add (f : Stability → Int) (k : GoString) :
    ∀ l : List (Sigma (fun _ : GoString => Stability)),
      ((List.kerase k l).map (fun e => f e.2)).sum +
          (match List.dlookup k l with | some v => f v | none => 0) =
        (l.map (fun e => f e.2)).sum
  | [] => by simp
  | ⟨k1, v1⟩ :: l => by
    by_cases h : k = k1
    · subst h
      simp [List.kerase_cons_eq, List.dlookup_cons_eq, add_comm]
    · have ih := sum_kerase_add f k l
      rw [List.kerase_cons_ne h, List.dlookup_cons_ne l ⟨k1, v1⟩ h]
      simp only [List.map_cons, List.sum_cons]
      omega

theorem Stats.sum_set (f : Stability → Int) (hf : f ⟨0, 0⟩ = 0) (s : Stats) (k : GoString)
    (v : Stability) :
    ((s.set k v).entries.map (fun e => f e.2)).sum =
      (s.entries.map (fun e => f e.2)).sum - f (s.get k) + f v := by
  have h := sum_kerase_add f k s.entries
  have hget : (match List.dlookup k s.entries with | some v => f v | none => 0) = f (s.get k) := by
    unfold Stats.get AList.lookup
    cases List.dlookup k s.entries with
    | none => simp [hf]
    | some w => simp
  rw [hget] at h
  simp only [Stats.set, AList.insert_entries, List.map_cons, List.sum_cons]
  omega

theorem Stats.sumFanOut_set (s : Stats) (k : GoString) (v : Stability) :
    (s.set k v).sumFanOut = s.sumFanOut - (s.get k).FanOut + v.FanOut :=
  Stats.sum_set (fun r => r.FanOut) rfl s k v

theorem Stats.sumFanIn_set (s : Stats) (k : GoString) (v : Stability) :
    (s.set k v).sumFanIn = s.sumFanIn - (s.get k).FanIn + v.FanIn :=
  Stats.sum_set (fun r => r.FanIn) rfl s k v

theorem getPackage_isSome {env : Env} {cwd : GoString} (h : env.getwd = some cwd)
    (fname : GoString) : ∃ pkg, getPackage env fname = some pkg := by
  simp [getPackage, h]

theorem inPackage_isSome {env : Env} {cwd : GoString} (h : env.getwd = some cwd)
    (a : Analyzer) (imp : GoString) : ∃ b, a.inPackage env imp = some b := by
  obtain ⟨pkg, hp⟩ := getPackage_isSome h a.repo
  simp [Analyzer.inPackage, hp]

theorem inPackage_congr_repo {env : Env} {a a1 : Analyzer} (h : a1.repo = a.repo)
    (imp : GoString) : a1.inPackage env imp = a.inPackage env imp := by
  simp [Analyzer.inPackage, h]

theorem wrapInt64_zero : wrapInt64 0 = 0 := by decide

theorem wrapInt64_wrap_succ (x : Int) : wrapInt64 (wrapInt64 x + 1) = wrapInt64 (x + 1) := by
  unfold wrapInt64
  omega

theorem incr_comm (a b : Bool) (x : Int) : incr a (incr b x) = incr b (incr a x) := by
  cases a <;> cases b <;> rfl

theorem incr_of_range {b : Bool} {x : Int} {m : Nat} (h0 : 0 ≤ x) (hm : x ≤ m)
    (hb : b = true → (m : Int) < maxInt64) : incr b x = x + b.toNat := by
  cases b with
  | false => simp [incr]
  | true =>
    have h := hb rfl
    simp only [incr, if_true, Bool.toNat_true, Nat.cast_one]
    exact wrapInt64_succ (by unfold minInt64; omega) (by omega)

theorem le_incr {b : Bool} {x : Int} (hb : b = true → x < maxInt64) : x ≤ incr b x := by
  cases b with
  | false => simp [incr]
  | true =>
    have h := hb rfl
    simp only [incr, if_true]
    unfold wrapInt64
    unfold maxInt64 at h
    omega

theorem Stats.lookup_bump (s : Stats) (k k' : GoString) (a b : Bool) :
    (s.bump k a b).lookup k' =
      if k' = k then some ⟨incr a (s.get k).FanIn, incr b (s.get k).FanOut⟩
      else s.lookup k' := by
  unfold Stats.bump
  split
  · rename_i h
    rw [h, Stats.lookup_set_self]
  · rename_i h
    rw [Stats.lookup_set_ne _ _ h]

theorem Stats.get_bump (s : Stats) (k k' : GoString) (a b : Bool) :
    (s.bump k a b).get k' =
      if k' = k then ⟨incr a (s.get k).FanIn, incr b (s.get k).FanOut⟩ else s.get k' := by
  unfold Stats.get
  rw [Stats.lookup_bump]
  split <;> rfl

theorem Stats.applyBumps_append (s : Stats) (ops1 ops2 : List (GoString × Bool × Bool)) :
    s.applyBumps (ops1 ++ ops2) = (s.applyBumps ops1).applyBumps ops2 := by
  simp [Stats.applyBumps, List.foldl_append]

/-- The loop body, as the record updates it performs. -/
theorem analyzeFileBody_eq_applyBumps {env : Env} {cwd : GoString} (h : env.getwd = some cwd)
    (a : Analyzer) (st : GoString × GoString) :
    a.analyzeFileBody env st.1 st.2 =
      some ⟨a.stats.applyBumps (bodyOps env a.repo st), a.repo⟩ := by
  obtain ⟨fo, hfo⟩ := getPackage_isSome h st.1
  obtain ⟨pkg, hpkg⟩ := getPackage_isSome h a.repo
  have hin : a.inPackage env (strings.Replace st.2 ['"'] []) =
      some (strings.Contains (strings.Replace st.2 ['"'] []) pkg) := by
    simp [Analyzer.inPackage, hpkg]
  cases hb : strings.Contains (strings.Replace st.2 ['"'] []) pkg with
  | false =>
    rw [hb] at hin
    rw [analyzeFileBody_of_external hfo hin]
    simp [bodyOps, hfo, hpkg, hb, stepOps, Stats.applyBumps, Stats.bump, incr]
  | true =>
    rw [hb] at hin
    rw [analyzeFileBody_of_local hfo hin]
    simp [bodyOps, hfo, hpkg, hb, stepOps, Stats.applyBumps, Stats.bump, incr]

/-- A run of loop bodies, as the record updates it performs. -/
theorem analyzeSteps_eq_applyBumps {env : Env} {cwd : GoString} (h : env.getwd = some cwd) :
    ∀ (steps : List (GoString × GoString)) (a : Analyzer),
      a.analyzeSteps env steps =
        some ⟨a.stats.applyBumps (steps.flatMap (bodyOps env a.repo)), a.repo⟩
  | [], a => rfl
  | st :: rest, a => by
    have h1 := analyzeFileBody_eq_applyBumps h a st
    have h2 := analyzeSteps_eq_applyBumps h rest
      ⟨a.stats.applyBumps (bodyOps env a.repo st), a.repo⟩
    obtain ⟨fname, imp⟩ := st
    simp only [Analyzer.analyzeSteps, h1, h2, List.flatMap_cons, Stats.applyBumps_append]

theorem Stats.bounded_empty : (∅ : Stats).Bounded 0 0 := by
  intro k v hv
  simp at hv

theorem Stats.bounded_get {s : Stats} {mi mo : Nat} (h : s.Bounded mi mo) (k : GoString) :
    (0 ≤ (s.get k).FanIn ∧ (s.get k).FanIn ≤ mi) ∧
      (0 ≤ (s.get k).FanOut ∧ (s.get k).FanOut ≤ mo) := by
  unfold Stats.get
  cases hl : s.lookup k with
  | none => simp
  | some v => simpa using h k v hl

/-- One record update on a table with bounded counters that leave room for the
increment: no addition wraps, each sum grows by what was added, and the bounds
grow likewise. -/
theorem Stats.bounded_bump {s : Stats} {mi mo : Nat} (hb : s.Bounded mi mo) (k : GoString)
    (i o : Bool) (hi : i = true → (mi : Int) < maxInt64)
    (ho : o = true → (mo : Int) < maxInt64) :
    (s.bump k i o).Bounded (mi + i.toNat) (mo + o.toNat) ∧
      (s.bump k i o).sumFanIn = s.sumFanIn + i.toNat ∧
      (s.bump k i o).sumFanOut = s.sumFanOut + o.toNat := by
  have hg := Stats.bounded_get hb k
  have e1 : incr i (s.get k).FanIn = (s.get k).FanIn + i.toNat := incr_of_range hg.1.1 hg.1.2 hi
  have e2 : incr o (s.get k).FanOut = (s.get k).FanOut + o.toNat := incr_of_range hg.2.1 hg.2.2 ho
  refine ⟨?_, ?_, ?_⟩
  · intro k' v hv
    rw [Stats.lookup_bump] at hv
    split at hv
    · simp only [Option.some.injEq] at hv
      subst hv
      simp only [e1, e2]
      push_cast
      omega
    · have := hb k' v hv
      push_cast
      omega
  · unfold Stats.bump
    rw [Stats.sumFanIn_set]
    simp only [e1]
    omega
  · unfold Stats.bump
    rw [Stats.sumFanOut_set]
    simp only [e2]
    omega

theorem countLocal_single {env : Env} {a : Analyzer} {pkg : GoString}
    (hpkg : getPackage env a.repo = some pkg) (fname imp : GoString) :
    countLocal env a [(fname, imp)] =
      (strings.Contains (strings.Replace imp ['"'] []) pkg).toNat := by
  cases hb : strings.Contains (strings.Replace imp ['"'] []) pkg <;>
    simp [countLocal, List.filter, Analyzer.inPackage, hpkg, hb]

/-- One loop body on a table whose counters lie between zero and `m`, when `m`
plus the number of local imports of the step does not exceed `maxInt64`: the
body returns, keeps the repository, adds one to both sums exactly when it reads
a local import, and the counters stay bounded. -/
theorem analyzeFileBody_bounded {env : Env} {cwd : GoString} (h : env.getwd = some cwd)
    (a : Analyzer) (fname imp : GoString) (m : Nat) (hb : a.stats.Bounded m m)
    (hm : ((m + countLocal env a [(fname, imp)] : Nat) : Int) ≤ maxInt64) :
    ∃ a1, a.analyzeFileBody env fname imp = some a1 ∧ a1.repo = a.repo ∧
      a1.stats.sumFanOut = a.stats.sumFanOut + countLocal env a [(fname, imp)] ∧
      a1.stats.sumFanIn = a.stats.sumFanIn + countLocal env a [(fname, imp)] ∧
      a1.stats.Bounded (m + countLocal env a [(fname, imp)])
        (m + countLocal env a [(fname, imp)]) := by
  obtain ⟨fo, hfo⟩ := getPackage_isSome h fname
  obtain ⟨pkg, hpkg⟩ := getPackage_isSome h a.repo
  refine ⟨_, analyzeFileBody_eq_applyBumps h a (fname, imp), rfl, ?_⟩
  rw [countLocal_single hpkg] at hm ⊢
  simp only [bodyOps, hfo, hpkg]
  cases hc : strings.Contains (strings.Replace imp ['"'] []) pkg with
  | false =>
    obtain ⟨b1, i1, o1⟩ := Stats.bounded_bump hb fo false false (fun e => Bool.noConfusion e)
      (fun e => Bool.noConfusion e)
    simp only [stepOps, Stats.applyBumps, List.foldl, Bool.toNat_false, Nat.cast_zero,
      Nat.add_zero, add_zero, Bool.false_eq_true, if_false] at b1 i1 o1 ⊢
    exact ⟨o1, i1, b1⟩
  | true =>
    rw [hc] at hm
    have hm1 : (m : Int) < maxInt64 := by
      simp only [Bool.toNat_true] at hm
      push_cast at hm
      omega
    obtain ⟨b1, i1, o1⟩ := Stats.bounded_bump hb fo false true (fun e => Bool.noConfusion e)
      (fun _ => hm1)
    obtain ⟨b2, i2, o2⟩ := Stats.bounded_bump b1 (strings.Replace imp ['"'] []) true false
      (by simpa using hm1) (fun e => Bool.noConfusion e)
    simp only [stepOps, Stats.applyBumps, List.foldl, Bool.toNat_false, Bool.toNat_true,
      Nat.cast_zero, Nat.cast_one, Nat.add_zero, add_zero, if_true] at b1 i1 o1 b2 i2 o2 ⊢
    exact ⟨by rw [o2, o1], by rw [i2, i1], b2⟩

theorem countLocal_cons (env : Env) (a : Analyzer) (st : GoString × GoString)
    (rest : List (GoString × GoString)) :
    countLocal env a (st :: rest) = countLocal env a [st] + countLocal env a rest := by
  simp only [countLocal, List.filter]
  split <;> simp [Nat.add_comm]

theorem countLocal_congr_repo {env : Env} {a a1 : Analyzer} (h : a1.repo = a.repo)
    (steps : List (GoString × GoString)) : countLocal env a1 steps = countLocal env a steps := by
  simp [countLocal, inPackage_congr_repo h]

/-- A run of loop bodies from a table whose counters lie between zero and `m`,
when `m` plus the number of local imports of the run does not exceed
`maxInt64`: the run returns, both sums grow by the number of local imports, and
the counters stay bounded. -/
theorem analyzeSteps_bounded {env : Env} {cwd : GoString} (h : env.getwd = some cwd) :
    ∀ (steps : List (GoString × GoString)) (a : Analyzer) (m : Nat), a.stats.Bounded m m →
      ((m + countLocal env a steps : Nat) : Int) ≤ maxInt64 →
      ∃ a1, a.analyzeSteps env steps = some a1 ∧ a1.repo = a.repo ∧
        a1.stats.sumFanOut = a.stats.sumFanOut + countLocal env a steps ∧
        a1.stats.sumFanIn = a.stats.sumFanIn + countLocal env a steps ∧
        a1.stats.Bounded (m + countLocal env a steps) (m + countLocal env a steps)
  | [], a, m, hb, _ => ⟨a, rfl, rfl, by simp [countLocal], by simp [countLocal],
      by simpa [countLocal] using hb⟩
  | (fname, imp) :: rest, a, m, hb, hm => by
    rw [countLocal_cons env a (fname, imp) rest] at hm ⊢
    obtain ⟨a1, h1, hr1, ho1, hi1, hb1⟩ := analyzeFileBody_bounded h a fname imp m hb
      (by push_cast at hm ⊢; omega)
    obtain ⟨a2, h2, hr2, ho2, hi2, hb2⟩ := analyzeSteps_bounded h rest a1
      (m + countLocal env a [(fname, imp)]) hb1
      (by rw [countLocal_congr_repo hr1]; push_cast at hm ⊢; omega)
    rw [countLocal_congr_repo hr1] at ho2 hi2 hb2
    refine ⟨a2, ?_, hr2.trans hr1, ?_, ?_, ?_⟩
    · simp only [Analyzer.analyzeSteps, h1, h2]
    · rw [ho2, ho1]; push_cast; ring
    · rw [hi2, hi1]; push_cast; ring
    · rw [← Nat.add_assoc]; exact hb2

theorem Stats.set_empty (k : GoString) (v : Stability) :
    Stats.set ∅ k v = AList.singleton k v := by
  apply AList.ext
  simp [Stats.set]

theorem Stats.set_singleton_self (k : GoString) (v w : Stability) :
    Stats.set (AList.singleton k v) k w = AList.singleton k w := by
  apply AList.ext
  simp [Stats.set]

theorem Stats.lookup_singleton_self (k : GoString) (v : Stability) :
    AList.lookup k (AList.singleton k v : Stats) = some v := by
  simp [AList.lookup, AList.singleton, List.dlookup_cons_eq]

theorem Stats.get_singleton_self (k : GoString) (v : Stability) :
    Stats.get (AList.singleton k v) k = v := by
  simp [Stats.get, Stats.lookup_singleton_self]

theorem selfLoopRun_succ (n : Nat) :
    selfLoopRun (n + 1) =
      ("a/x.go".toList, "\"github.com/u/r/a\"".toList) :: selfLoopRun n := by
  rfl

/-- One loop body of the self-importing file on a table that holds only its
package. -/
theorem analyzeFileBody_selfLoop (x y : Int) :
    (Analyzer.mk (AList.singleton "github.com/u/r/a".toList ⟨x, y⟩)
        ".".toList).analyzeFileBody sampleEnv "a/x.go".toList "\"github.com/u/r/a\"".toList =
      some ⟨AList.singleton "github.com/u/r/a".toList ⟨wrapInt64 (x + 1), wrapInt64 (y + 1)⟩,
        ".".toList⟩ := by
  have hk : strings.Replace "\"github.com/u/r/a\"".toList ['"'] [] =
      "github.com/u/r/a".toList := by decide
  have hloc : (Analyzer.mk (AList.singleton "github.com/u/r/a".toList ⟨x, y⟩)
      ".".toList).inPackage sampleEnv (strings.Replace "\"github.com/u/r/a\"".toList ['"'] []) =
      some true := by
    have e := @inPackage_congr_repo sampleEnv sampleAnalyzer
      (Analyzer.mk (AList.singleton "github.com/u/r/a".toList ⟨x, y⟩) ".".toList) rfl
      (strings.Replace "\"github.com/u/r/a\"".toList ['"'] [])
    rw [e]
    decide
  rw [@analyzeFileBody_of_local _ _ _ _ "github.com/u/r/a".toList (by decide) hloc, hk,
    Stats.get_singleton_self, Stats.set_singleton_self, Stats.get_singleton_self,
    Stats.set_singleton_self]

/-- A run of `n` self-importing loop bodies on a table that holds only the
package, with both counters at the wrapped value of `m`. -/
theorem analyzeSteps_selfLoopRun_from : ∀ (n : Nat) (m : Int),
    (Analyzer.mk (AList.singleton "github.com/u/r/a".toList ⟨wrapInt64 m, wrapInt64 m⟩)
        ".".toList).analyzeSteps sampleEnv (selfLoopRun n) =
      some ⟨AList.singleton "github.com/u/r/a".toList
        ⟨wrapInt64 (m + n), wrapInt64 (m + n)⟩, ".".toList⟩
  | 0, m => by simp [selfLoopRun, Analyzer.analyzeSteps]
  | n + 1, m => by
    rw [selfLoopRun_succ]
    simp only [Analyzer.analyzeSteps]
    rw [analyzeFileBody_selfLoop]
    simp only [wrapInt64_wrap_succ]
    rw [analyzeSteps_selfLoopRun_from n (m + 1)]
    have e : m + 1 + (n : Int) = m + ((n + 1 : Nat) : Int) := by push_cast; ring
    rw [e]

/-- A run of `n + 1` self-importing loop bodies from the empty table: the table
holds the package alone, with both counters at the wrapped value of `n + 1`. -/
theorem analyzeSteps_selfLoopRun (n : Nat) :
    (Analyzer.mk ∅ ".".toList).analyzeSteps sampleEnv (selfLoopRun (n + 1)) =
      some ⟨AList.singleton "github.com/u/r/a".toList
        ⟨wrapInt64 (1 + n), wrapInt64 (1 + n)⟩, ".".toList⟩ := by
  have hk : strings.Replace "\"github.com/u/r/a\"".toList ['"'] [] =
      "github.com/u/r/a".toList := by decide
  have hloc : (Analyzer.mk ∅ ".".toList).inPackage sampleEnv
      (strings.Replace "\"github.com/u/r/a\"".toList ['"'] []) = some true := by decide
  have h0 : Stats.get ∅ "github.com/u/r/a".toList = ⟨0, 0⟩ := rfl
  rw [selfLoopRun_succ]
  simp only [Analyzer.analyzeSteps]
  rw [@analyzeFileBody_of_local _ _ _ _ "github.com/u/r/a".toList (by decide) hloc, hk]
  simp only [h0, Stats.set_empty, Stats.get_singleton_self, Stats.set_singleton_self]
  exact analyzeSteps_selfLoopRun_from n (0 + 1)

theorem countLocal_selfLoopRun : ∀ n : Nat,
    countLocal sampleEnv (Analyzer.mk ∅ ".".toList) (selfLoopRun n) = n
  | 0 => by simp [selfLoopRun, countLocal]
  | n + 1 => by
    have h1 : countLocal sampleEnv (Analyzer.mk ∅ ".".toList)
        [("a/x.go".toList, "\"github.com/u/r/a\"".toList)] = 1 := by decide
    rw [selfLoopRun_succ, countLocal_cons, h1, countLocal_selfLoopRun n, Nat.add_comm]

theorem sumFanOut_singleton (k : GoString) (v : Stability) :
    Stats.sumFanOut (AList.singleton k v) = v.FanOut := by
  simp [Stats.sumFanOut]

theorem sumFanIn_singleton (k : GoString) (v : Stability) :
    Stats.sumFanIn (AList.singleton k v) = v.FanIn := by
  simp [Stats.sumFanIn]

theorem wrapInt64_two_pow_63 : wrapInt64 (1 + (9223372036854775807 : Nat)) = minInt64 := by
  decide

/-- C4, as stated, fails: the run of `2^63` loop bodies for a file that imports
its own package, from the empty table, returns a table in which the sum of
`FanOut` and the sum of `FanIn` are both `minInt64`, while `2^63` local imports
were processed. -/
theorem fan_balance_fails_after_wrap :
    ∃ a1, (Analyzer.mk ∅ ".".toList).analyzeSteps sampleEnv
        (selfLoopRun (9223372036854775807 + 1)) = some a1 ∧
      countLocal sampleEnv (Analyzer.mk ∅ ".".toList) (selfLoopRun (9223372036854775807 + 1)) =
        9223372036854775807 + 1 ∧
      a1.stats.sumFanOut = minInt64 ∧ a1.stats.sumFanIn = minInt64 ∧
      minInt64 ≠ ((9223372036854775807 + 1 : Nat) : Int) :=
  ⟨_, analyzeSteps_selfLoopRun 9223372036854775807, countLocal_selfLoopRun _,
    (sumFanOut_singleton _ _).trans wrapInt64_two_pow_63,
    (sumFanIn_singleton _ _).trans wrapInt64_two_pow_63, by decide⟩

/-- C4, amended: a run of `analyzeFile` loop bodies from the empty table, for any
sequence of files and imports of which at most `maxInt64` are locally
classified, returns a table in which the sum of `FanOut` over all records and
the sum of `FanIn` over all records both equal the number of locally
classified imports processed. -/
theorem analyzeSteps_fan_balance (env : Env) (cwd repo : GoString)
    (steps : List (GoString × GoString)) (h : env.getwd = some cwd)
    (hmax : (countLocal env (Analyzer.mk ∅ repo) steps : Int) ≤ maxInt64) :
    ∃ a1, (Analyzer.mk ∅ repo).analyzeSteps env steps = some a1 ∧
      a1.stats.sumFanOut = countLocal env (Analyzer.mk ∅ repo) steps ∧
      a1.stats.sumFanIn = countLocal env (Analyzer.mk ∅ repo) steps := by
  obtain ⟨a1, h1, _, ho, hi, _⟩ := analyzeSteps_bounded h steps (Analyzer.mk ∅ repo) 0
    Stats.bounded_empty (by simpa using hmax)
  refine ⟨a1, h1, ?_, ?_⟩
  · rw [ho]; simp [Stats.sumFanOut]
  · rw [hi]; simp [Stats.sumFanIn]

/-- The statement of C4, amended, on a run of three imports: a local edge,
an import of an external package and a self-loop. -/
theorem analyzeSteps_fan_balance_witness :
    ∃ a1, (Analyzer.mk ∅ ".".toList).analyzeSteps sampleEnv
        [("a/x.go".toList, "\"github.com/u/r/b\"".toList),
         ("b/y.go".toList, "\"fmt\"".toList),
         ("b/y.go".toList, "\"github.com/u/r/b\"".toList)] = some a1 ∧
      a1.stats.sumFanOut = countLocal sampleEnv (Analyzer.mk ∅ ".".toList)
        [("a/x.go".toList, "\"github.com/u/r/b\"".toList),
         ("b/y.go".toList, "\"fmt\"".toList),
         ("b/y.go".toList, "\"github.com/u/r/b\"".toList)] ∧
      a1.stats.sumFanIn = countLocal sampleEnv (Analyzer.mk ∅ ".".toList)
        [("a/x.go".toList, "\"github.com/u/r/b\"".toList),
         ("b/y.go".toList, "\"fmt\"".toList),
         ("b/y.go".toList, "\"github.com/u/r/b\"".toList)] :=
  analyzeSteps_fan_balance sampleEnv "/go/src/github.com/u/r".toList ".".toList _ rfl
    (by decide)

/-! ## Rounding to a 53-bit significand -/

theorem floor_le_roundHalfEven (q : ℚ) : ⌊q⌋ ≤ roundHalfEven q := by
  unfold roundHalfEven
  simp only []
  split_ifs <;> omega

theorem roundHalfEven_le_floor_succ (q : ℚ) : roundHalfEven q ≤ ⌊q⌋ + 1 := by
  unfold roundHalfEven
  simp only []
  split_ifs <;> omega

theorem roundHalfEven_intCast (n : ℤ) : roundHalfEven (n : ℚ) = n := by
  unfold roundHalfEven
  simp

theorem roundHalfEven_mono {p q : ℚ} (h : p ≤ q) : roundHalfEven p ≤ roundHalfEven q := by
  have hf : ⌊p⌋ ≤ ⌊q⌋ := Int.floor_mono h
  rcases lt_or_eq_of_le hf with hlt | heq
  · calc roundHalfEven p ≤ ⌊p⌋ + 1 := roundHalfEven_le_floor_succ p
      _ ≤ ⌊q⌋ := hlt
      _ ≤ roundHalfEven q := floor_le_roundHalfEven q
  · unfold roundHalfEven
    simp only [heq]
    split_ifs <;> first | omega | linarith

theorem ulp_pos (x : ℚ) : (0 : ℚ) < (2 : ℚ) ^ (Int.log 2 |x| - 52) := by positivity

theorem div_ulp_bounds {x : ℚ} (hx : 0 < x) :
    ((2 ^ 52 : ℤ) : ℚ) ≤ x / (2 : ℚ) ^ (Int.log 2 x - 52) ∧
      x / (2 : ℚ) ^ (Int.log 2 x - 52) ≤ ((2 ^ 53 : ℤ) : ℚ) := by
  have h1 : ((2 : ℕ) : ℚ) ^ Int.log 2 x ≤ x := Int.zpow_log_le_self (by norm_num) hx
  have h2 : x < ((2 : ℕ) : ℚ) ^ (Int.log 2 x + 1) := Int.lt_zpow_succ_log_self (by norm_num) x
  have hu : (0 : ℚ) < (2 : ℚ) ^ (Int.log 2 x - 52) := by positivity
  have e1 : ((2 : ℕ) : ℚ) ^ Int.log 2 x = 2 ^ 52 * (2 : ℚ) ^ (Int.log 2 x - 52) := by
    rw [zpow_sub₀ (by norm_num)]; push_cast; field_simp; ring
  have e2 : ((2 : ℕ) : ℚ) ^ (Int.log 2 x + 1) = 2 ^ 53 * (2 : ℚ) ^ (Int.log 2 x - 52) := by
    rw [zpow_sub₀ (by norm_num), zpow_add₀ (by norm_num)]; push_cast; field_simp; ring
  constructor
  · rw [le_div_iff₀ hu]; push_cast; linarith
  · rw [div_le_iff₀ hu]; push_cast; linarith

theorem round53_zero : round53 0 = 0 := by simp [round53]

theorem round53_of_pos {x : ℚ} (hx : 0 < x) :
    round53 x = (roundHalfEven (x / (2 : ℚ) ^ (Int.log 2 x - 52)) : ℚ) * (2 : ℚ) ^ (Int.log 2 x - 52) := by
  simp [round53, hx.ne', abs_of_pos hx]

theorem sig_bounds {x : ℚ} (hx : 0 < x) :
    (2 ^ 52 : ℤ) ≤ roundHalfEven (x / (2 : ℚ) ^ (Int.log 2 x - 52)) ∧
      roundHalfEven (x / (2 : ℚ) ^ (Int.log 2 x - 52)) ≤ (2 ^ 53 : ℤ) := by
  obtain ⟨h1, h2⟩ := div_ulp_bounds hx
  constructor
  · have := roundHalfEven_mono h1
    rwa [roundHalfEven_intCast] at this
  · have := roundHalfEven_mono h2
    rwa [roundHalfEven_intCast] at this

theorem round53_bounds {x : ℚ} (hx : 0 < x) :
    (2 : ℚ) ^ Int.log 2 x ≤ round53 x ∧ round53 x ≤ (2 : ℚ) ^ (Int.log 2 x + 1) := by
  obtain ⟨h1, h2⟩ := sig_bounds hx
  have hu : (0 : ℚ) < (2 : ℚ) ^ (Int.log 2 x - 52) := by positivity
  have e1 : (2 : ℚ) ^ Int.log 2 x = 2 ^ 52 * (2 : ℚ) ^ (Int.log 2 x - 52) := by
    rw [zpow_sub₀ (by norm_num)]; field_simp; ring
  have e2 : (2 : ℚ) ^ (Int.log 2 x + 1) = 2 ^ 53 * (2 : ℚ) ^ (Int.log 2 x - 52) := by
    rw [zpow_sub₀ (by norm_num), zpow_add₀ (by norm_num)]; field_simp; ring
  have c1 : ((2 ^ 52 : ℤ) : ℚ) ≤ (roundHalfEven (x / (2 : ℚ) ^ (Int.log 2 x - 52)) : ℚ) := by
    exact_mod_cast h1
  have c2 : (roundHalfEven (x / (2 : ℚ) ^ (Int.log 2 x - 52)) : ℚ) ≤ ((2 ^ 53 : ℤ) : ℚ) := by
    exact_mod_cast h2
  rw [round53_of_pos hx, e1, e2]
  push_cast at c1 c2
  constructor
  · exact mul_le_mul_of_nonneg_right c1 hu.le
  · exact mul_le_mul_of_nonneg_right c2 hu.le

theorem round53_pos {x : ℚ} (hx : 0 < x) : 0 < round53 x :=
  lt_of_lt_of_le (by positivity) (round53_bounds hx).1

theorem round53_nonneg {x : ℚ} (hx : 0 ≤ x) : 0 ≤ round53 x := by
  rcases hx.lt_or_eq with h | h
  · exact (round53_pos h).le
  · rw [← h, round53_zero]

theorem round53_mono_of_pos {x y : ℚ} (hx : 0 < x) (hxy : x ≤ y) : round53 x ≤ round53 y := by
  have hy : 0 < y := lt_of_lt_of_le hx hxy
  have hlog : Int.log 2 x ≤ Int.log 2 y := Int.log_mono_right hx hxy
  rcases lt_or_eq_of_le hlog with hlt | heq
  · calc round53 x ≤ (2 : ℚ) ^ (Int.log 2 x + 1) := (round53_bounds hx).2
      _ ≤ (2 : ℚ) ^ Int.log 2 y := zpow_le_zpow_right₀ (by norm_num) (by omega)
      _ ≤ round53 y := (round53_bounds hy).1
  · rw [round53_of_pos hx, round53_of_pos hy, heq]
    have hu : (0 : ℚ) < (2 : ℚ) ^ (Int.log 2 y - 52) := by positivity
    apply mul_le_mul_of_nonneg_right _ hu.le
    exact_mod_cast roundHalfEven_mono (div_le_div_of_nonneg_right hxy hu.le)

theorem log_eq_of_bounds {r : ℚ} {e : ℤ} (h1 : (2 : ℚ) ^ e ≤ r) (h2 : r < (2 : ℚ) ^ (e + 1)) :
    Int.log 2 r = e := by
  have hr : 0 < r := lt_of_lt_of_le (by positivity) h1
  have a1 : e ≤ Int.log 2 r := (Int.zpow_le_iff_le_log (by norm_num) hr).1 (by exact_mod_cast h1)
  have a2 : Int.log 2 r < e + 1 := (Int.lt_zpow_iff_log_lt (by norm_num) hr).1 (by exact_mod_cast h2)
  omega

theorem round53_one : round53 1 = 1 := by
  have h : Int.log 2 (1 : ℚ) = 0 := Int.log_one_right 2
  rw [round53_of_pos one_pos, h]
  have : (1 : ℚ) / (2 : ℚ) ^ ((0 : ℤ) - 52) = ((2 ^ 52 : ℤ) : ℚ) := by
    rw [zpow_sub₀ (by norm_num)]; norm_num
  rw [this, roundHalfEven_intCast, zpow_sub₀ (by norm_num)]
  norm_num

theorem round53_idem {x : ℚ} (hx : 0 < x) : round53 (round53 x) = round53 x := by
  obtain ⟨h1, h2⟩ := sig_bounds hx
  obtain ⟨b1, b2⟩ := round53_bounds hx
  have hr : 0 < round53 x := round53_pos hx
  have hu : (0 : ℚ) < (2 : ℚ) ^ (Int.log 2 x - 52) := by positivity
  rcases lt_or_eq_of_le b2 with hlt | heq
  · have hlog : Int.log 2 (round53 x) = Int.log 2 x := log_eq_of_bounds b1 hlt
    rw [round53_of_pos hr, hlog]
    rw [round53_of_pos hx, mul_div_assoc, div_self hu.ne', mul_one, roundHalfEven_intCast]
  · have hlog : Int.log 2 (round53 x) = Int.log 2 x + 1 := by
      rw [heq]; exact_mod_cast Int.log_zpow (R := ℚ) (b := 2) (by norm_num) (Int.log 2 x + 1)
    rw [round53_of_pos hr, hlog, heq]
    have e3 : (2 : ℚ) ^ (Int.log 2 x + 1) / (2 : ℚ) ^ (Int.log 2 x + 1 - 52) = ((2 ^ 52 : ℤ) : ℚ) := by
      rw [zpow_sub₀ (by norm_num)]; push_cast; field_simp; norm_num
    rw [e3, roundHalfEven_intCast, zpow_sub₀ (by norm_num)]
    push_cast; field_simp; ring

/-! ## The instability metric -/

/-- C5: `Instability` returns exactly `0.0` on the record `{FanIn: 0, FanOut: 0}`;
the guard is what yields it, since the quotient of the unguarded branch at these
operands is a NaN. -/
theorem Instability_zero_record :
    (Stability.mk 0 0).Instability = F64.fin 0 ∧
      float64Div (float64OfInt 0) (float64Add (float64OfInt 0) (float64OfInt 0)) = F64.nan := by
  constructor
  · simp [Stability.Instability, wrapInt64_zero]
  · simp [float64Div, float64Add, float64OfInt, round53_zero]

/-- C6: on a record with `FanIn ≥ 0` and `FanOut ≥ 0`, `Instability` returns a
finite `float64` between 0 and 1. -/
theorem Instability_bounds (s : Stability) (hin : 0 ≤ s.FanIn) (hout : 0 ≤ s.FanOut) :
    ∃ q, s.Instability = F64.fin q ∧ 0 ≤ q ∧ q ≤ 1 := by
  by_cases h0 : wrapInt64 (s.FanIn + s.FanOut) = 0
  · exact ⟨0, by simp [Stability.Instability, h0], le_rfl, zero_le_one⟩
  · have hsum : ¬ s.FanIn + s.FanOut = 0 := fun e => h0 (by rw [e]; exact wrapInt64_zero)
    have hinq : (0 : ℚ) ≤ (s.FanIn : ℚ) := by exact_mod_cast hin
    have houtq : (0 : ℚ) ≤ (s.FanOut : ℚ) := by exact_mod_cast hout
    have ha : 0 ≤ float64OfInt s.FanOut := round53_nonneg houtq
    have hb : 0 ≤ float64OfInt s.FanIn := round53_nonneg hinq
    have hab : 0 < float64OfInt s.FanIn + float64OfInt s.FanOut := by
      rcases hout.lt_or_eq with h | h
      · have : (0 : ℚ) < (s.FanOut : ℚ) := by exact_mod_cast h
        have := round53_pos this
        unfold float64OfInt at *
        linarith
      · have h1 : 0 < s.FanIn := by omega
        have : (0 : ℚ) < (s.FanIn : ℚ) := by exact_mod_cast h1
        have := round53_pos this
        unfold float64OfInt at *
        linarith
    have hs : 0 < float64Add (float64OfInt s.FanIn) (float64OfInt s.FanOut) := round53_pos hab
    by_cases ha0 : float64OfInt s.FanOut = 0
    · refine ⟨0, ?_, le_rfl, zero_le_one⟩
      rw [ha0] at hs
      simp only [Stability.Instability, h0, float64Div, ha0, if_neg hs.ne', if_neg (not_lt.2 hs.le),
        if_true, if_false]
    · have hapos : 0 < float64OfInt s.FanOut := lt_of_le_of_ne ha (Ne.symm ha0)
      have houtpos : (0 : ℚ) < (s.FanOut : ℚ) := by
        rcases houtq.lt_or_eq with h | h
        · exact h
        · exact absurd (by rw [float64OfInt, ← h, round53_zero]) ha0
      have hle : float64OfInt s.FanOut ≤
          float64Add (float64OfInt s.FanIn) (float64OfInt s.FanOut) := by
        have hidem : round53 (float64OfInt s.FanOut) = float64OfInt s.FanOut :=
          round53_idem houtpos
        rw [← hidem]
        exact round53_mono_of_pos hapos (by linarith)
      have hq1 : float64OfInt s.FanOut /
          float64Add (float64OfInt s.FanIn) (float64OfInt s.FanOut) ≤ 1 :=
        (div_le_one hs).2 hle
      have hq0 : 0 < float64OfInt s.FanOut /
          float64Add (float64OfInt s.FanIn) (float64OfInt s.FanOut) := div_pos hapos hs
      refine ⟨round53 (float64OfInt s.FanOut /
          float64Add (float64OfInt s.FanIn) (float64OfInt s.FanOut)), ?_, ?_, ?_⟩
      · simp [Stability.Instability, h0, float64Div, hs.ne', ha0]
      · exact (round53_pos hq0).le
      · have := round53_mono_of_pos hq0 hq1
        rwa [round53_one] at this

/-- The statement of C6 on the record `{FanIn: 1, FanOut: 2}`. -/
theorem Instability_bounds_witness :
    ∃ q, (Stability.mk 1 2).Instability = F64.fin q ∧ 0 ≤ q ∧ q ≤ 1 :=
  Instability_bounds (Stability.mk 1 2) (by decide) (by decide)

/-! ## The report -/

theorem stringLe_total : ∀ a b : GoString, stringLe a b = true ∨ stringLe b a = true
  | [], _ => Or.inl rfl
  | _ :: _, [] => Or.inr rfl
  | a :: as, b :: bs => by
    rcases Nat.lt_trichotomy a.toNat b.toNat with h | h | h
    · left; simp [stringLe, h]
    · simpa [stringLe, h] using stringLe_total as bs
    · right; simp [stringLe, h]

theorem stringLe_trans : ∀ a b c : GoString,
    stringLe a b = true → stringLe b c = true → stringLe a c = true
  | [], _, _, _, _ => rfl
  | _ :: _, [], _, h, _ => by simp [stringLe] at h
  | _ :: _, _ :: _, [], _, h => by simp [stringLe] at h
  | a :: as, b :: bs, c :: cs, hab, hbc => by
    simp only [stringLe] at hab hbc ⊢
    split_ifs at hab hbc ⊢
    all_goals first
      | rfl
      | exact stringLe_trans as bs cs hab hbc
      | omega

instance stringLe_isTotal : IsTotal GoString (fun a b => stringLe a b = true) :=
  ⟨stringLe_total⟩

instance stringLe_isTrans : IsTrans GoString (fun a b => stringLe a b = true) :=
  ⟨stringLe_trans⟩

theorem sortStrings_perm (lst : List GoString) : (sortStrings lst).Perm lst :=
  List.perm_insertionSort _ lst

theorem sortStrings_sorted (lst : List GoString) :
    (sortStrings lst).Pairwise (fun a b => stringLe a b = true) :=
  List.sorted_insertionSort _ lst

/-- Reading the key of an entry of the table gives the record of that entry. -/
theorem Stats.get_of_mem_entries (stats : Stats) {e : Sigma (fun _ : GoString => Stability)}
    (h : e ∈ stats.entries) : stats.get e.1 = e.2 := by
  have : e.2 ∈ stats.lookup e.1 := AList.mem_lookup_iff.2 (by simpa using h)
  simp [Stats.get, Option.mem_def.1 this]

/-- C7: the lines that `Report` emits are the renderings "instability, tab,
identifier" of the keys of the table, every key taken exactly once, and they are
in non-decreasing lexicographic order; the text printed is these lines joined by
newlines and terminated by one. -/
theorem Report_one_sorted_line_per_key (stats : Stats) :
    ∃ ks : List GoString, ks.Perm stats.keys ∧ ks.Nodup ∧
      reportLines stats =
        ks.map (fun k => formatFloat2 (stats.get k).Instability ++ ['\t'] ++ k) ∧
      (reportLines stats).Pairwise (fun a b => stringLe a b = true) ∧
      Report stats = strings.Join (reportLines stats) ['\n'] ++ ['\n'] := by
  let g : Sigma (fun _ : GoString => Stability) → GoString :=
    fun e => formatFloat2 e.2.Instability ++ ['\t'] ++ e.1
  let es := stats.entries.insertionSort (fun a b => stringLe (g a) (g b) = true)
  have hes : es.Perm stats.entries := List.perm_insertionSort _ _
  have hks : (es.map Sigma.fst).Perm stats.keys := hes.map Sigma.fst
  have hmap : es.map g = reportLines stats :=
    List.map_insertionSort (r := fun a b => stringLe (g a) (g b) = true)
      (s := fun a b => stringLe a b = true) g stats.entries (fun _ _ _ _ => Iff.rfl)
  refine ⟨es.map Sigma.fst, hks, (hks.nodup_iff).2 stats.keys_nodup, ?_,
    sortStrings_sorted _, rfl⟩
  rw [← hmap, List.map_map]
  apply List.map_congr_left
  intro e he
  have hget := Stats.get_of_mem_entries stats (hes.mem_iff.1 he)
  simp only [Function.comp, hget, g]

/-! ## File names in one directory -/

theorem slashEnded_nil : SlashEnded [] := by
  intro c hc; simp at hc

theorem slashEnded_concat (q : GoString) : SlashEnded (q ++ ['/']) := by
  intro c hc
  simpa [List.getLast?_append] using hc.symm

theorem SlashEnded.tail {c : Char} {t : GoString} (h : SlashEnded (c :: t)) : SlashEnded t := by
  cases t with
  | nil => exact slashEnded_nil
  | cons b l =>
    intro x hx
    exact h x (by rwa [List.getLast?_cons_cons])

theorem SlashEnded.exists_cons {c : Char} {t : GoString} (h : SlashEnded (c :: t))
    (hc : c ≠ '/') : ∃ b l, t = b :: l := by
  cases t with
  | nil => exact absurd (h c (by simp)) hc
  | cons b l => exact ⟨b, l, rfl⟩

theorem SlashEnded.dropWhile (p : Char → Bool) :
    ∀ {q : GoString}, SlashEnded q → SlashEnded (q.dropWhile p)
  | [], _ => by simpa using slashEnded_nil
  | c :: t, h => by
    rw [List.dropWhile_cons]
    split
    · exact SlashEnded.dropWhile p h.tail
    · exact h

theorem SlashEnded.mem_slash {q : GoString} (h : SlashEnded q) (hq : q ≠ []) : '/' ∈ q := by
  have hl : q.getLast? = some (q.getLast hq) := List.getLast?_eq_getLast q hq
  have := h _ (by rw [hl]; rfl)
  rw [← this]
  exact List.getLast_mem hq

theorem takeWhile_append_of_mem (p : Char → Bool) (f : GoString) :
    ∀ q : GoString, (∃ x ∈ q, p x = false) →
      (q ++ f).takeWhile p = q.takeWhile p ∧ (q ++ f).dropWhile p = q.dropWhile p ++ f
  | [], h => by obtain ⟨x, hx, _⟩ := h; simp at hx
  | c :: t, h => by
    cases hc : p c with
    | false => simp [List.takeWhile_cons, List.dropWhile_cons, hc]
    | true =>
      have ht : ∃ x ∈ t, p x = false := by
        obtain ⟨x, hx, hpx⟩ := h
        rcases List.mem_cons.1 hx with rfl | hx
        · rw [hc] at hpx; cases hpx
        · exact ⟨x, hx, hpx⟩
      obtain ⟨h1, h2⟩ := takeWhile_append_of_mem p f t ht
      simp [List.takeWhile_cons, List.dropWhile_cons, hc, h1, h2]

theorem takeWhile_of_forall (p : Char → Bool) :
    ∀ f : GoString, (∀ x ∈ f, p x = true) → f.takeWhile p = f ∧ f.dropWhile p = []
  | [], _ => by simp
  | c :: t, h => by
    have hc : p c = true := h c (List.mem_cons_self c t)
    obtain ⟨h1, h2⟩ := takeWhile_of_forall p t (fun x hx => h x (List.mem_cons_of_mem c hx))
    simp [List.takeWhile_cons, List.dropWhile_cons, hc, h1, h2]

theorem plainName_iff {f : GoString} :
    plainName f = true ↔ f ≠ [] ∧ '/' ∉ f ∧ f ≠ ['.'] ∧ f ≠ ['.', '.'] := by
  simp [plainName, and_assoc]

namespace filepath

theorem le_backtrack (buf : GoString) (dd : Nat) : ∀ w, dd ≤ w → dd ≤ backtrack buf dd w
  | 0, h => by simpa [backtrack] using h
  | w + 1, h => by
    unfold backtrack
    split
    · rename_i hc
      have : dd < w + 1 := by simp at hc; exact hc.1
      exact le_backtrack buf dd w (by omega)
    · exact h

theorem cleanLoop_nil (rooted : Bool) (n : Nat) (buf : GoString) (dd : Nat) :
    cleanLoop rooted n [] buf dd = buf := by
  cases n <;> rfl

theorem cleanLoop_succ_cons (rooted : Bool) (k : Nat) (c : Char) (t buf : GoString) (dd : Nat) :
    cleanLoop rooted (k + 1) (c :: t) buf dd =
      if IsPathSeparator c then cleanLoop rooted k t buf dd
      else if c == '.' && (t.isEmpty || IsPathSeparator (t.headD Separator)) then
        cleanLoop rooted k t buf dd
      else if c == '.' && t.head? == some '.' &&
          (t.tail.isEmpty || IsPathSeparator (t.tail.headD Separator)) then
        if dd < buf.length then
          cleanLoop rooted k t.tail (buf.take (backtrack buf dd (buf.length - 1))) dd
        else if !rooted then
          cleanLoop rooted k t.tail ((if 0 < buf.length then buf ++ [Separator] else buf) ++ ['.', '.'])
            ((if 0 < buf.length then buf ++ [Separator] else buf) ++ ['.', '.']).length
        else cleanLoop rooted k t.tail buf dd
      else
        cleanLoop rooted k ((c :: t).dropWhile (fun x => !IsPathSeparator x))
          ((if (rooted && buf.length != 1) || (!rooted && buf.length != 0) then buf ++ [Separator]
            else buf) ++ (c :: t).takeWhile (fun x => !IsPathSeparator x)) dd := rfl

theorem slashEnded_withSeparator {rooted : Bool} {buf : GoString} {dd : Nat}
    (h : RootedInv rooted buf dd) : SlashEnded (withSeparator rooted buf) := by
  unfold withSeparator
  split
  · exact slashEnded_concat buf
  · rename_i hc
    cases rooted with
    | false =>
      have : buf = [] := by simpa using hc
      rw [this]; exact slashEnded_nil
    | true =>
      have hl : buf.length = 1 := by simpa using hc
      obtain ⟨hh, _⟩ := h rfl
      match buf, hl, hh with
      | [b], _, hh =>
        simp at hh
        subst hh
        intro c hc
        simpa using hc.symm

theorem rootedInv_withSeparator_append {rooted : Bool} {buf : GoString} {dd : Nat}
    (h : RootedInv rooted buf dd) (e : GoString) :
    RootedInv rooted (withSeparator rooted buf ++ e) dd := by
  intro hr
  obtain ⟨hh, hd⟩ := h hr
  refine ⟨?_, hd⟩
  unfold withSeparator
  cases buf with
  | nil => simp at hh
  | cons b l => split <;> simpa using hh

/-- The loop of `Clean` on a plain file name: one real path element. -/
theorem cleanLoop_plain (rooted : Bool) {f : GoString} (hf : plainName f = true)
    (fuel : Nat) (hfuel : f.length ≤ fuel) (buf : GoString) (dd : Nat) :
    cleanLoop rooted fuel f buf dd = withSeparator rooted buf ++ f := by
  obtain ⟨h0, hs, h1, h2⟩ := plainName_iff.1 hf
  have hall : ∀ x ∈ f, (fun x => !IsPathSeparator x) x = true := by
    intro x hx
    have : x ≠ '/' := fun e => hs (e ▸ hx)
    simpa [IsPathSeparator, Separator] using this
  obtain ⟨htw, hdw⟩ := takeWhile_of_forall _ f hall
  match f, fuel, h0, hfuel with
  | c :: t, k + 1, _, _ =>
    have hc : IsPathSeparator c = false := by
      have := hall c (List.mem_cons_self c t)
      simpa using this
    have c2 : (c == '.' && (t.isEmpty || IsPathSeparator (t.headD Separator))) = false := by
      cases t with
      | nil =>
        have : c ≠ '.' := fun e => h1 (by rw [e])
        simpa using this
      | cons b l =>
        have hb := hall b (List.mem_cons_of_mem c (List.mem_cons_self b l))
        simp at hb
        simp [hb]
    have c3 : (c == '.' && t.head? == some '.' &&
        (t.tail.isEmpty || IsPathSeparator (t.tail.headD Separator))) = false := by
      match t with
      | [] => simp
      | [b] =>
        have : ¬ (c = '.' ∧ b = '.') := fun e => h2 (by rw [e.1, e.2])
        simpa using this
      | b :: b2 :: l =>
        have hb := hall b2 (List.mem_cons_of_mem c (List.mem_cons_of_mem b (List.mem_cons_self b2 l)))
        simp at hb
        simp [hb]
    rw [cleanLoop_succ_cons, hc, c2, c3, htw, hdw, cleanLoop_nil]
    simp [withSeparator]

/-- One iteration of the loop of `Clean` on a slash-ended prefix `q` followed by
anything: the iteration reads inside `q` only. -/
theorem cleanLoop_step (rooted : Bool) {c : Char} {t buf : GoString} {dd : Nat}
    (hq : SlashEnded (c :: t)) (hinv : RootedInv rooted buf dd) :
    ∃ q1 buf1 dd1, q1.length ≤ t.length ∧ SlashEnded q1 ∧ RootedInv rooted buf1 dd1 ∧
      ∀ (f : GoString) (k : Nat),
        cleanLoop rooted (k + 1) (c :: t ++ f) buf dd = cleanLoop rooted k (q1 ++ f) buf1 dd1 := by
  have hdefault : IsPathSeparator c = false →
      (∀ f : GoString, (c == '.' && ((t ++ f).isEmpty ||
        IsPathSeparator ((t ++ f).headD Separator))) = false) →
      (∀ f : GoString, (c == '.' && (t ++ f).head? == some '.' &&
        ((t ++ f).tail.isEmpty || IsPathSeparator ((t ++ f).tail.headD Separator))) = false) →
      ∃ q1 buf1 dd1, q1.length ≤ t.length ∧ SlashEnded q1 ∧ RootedInv rooted buf1 dd1 ∧
        ∀ (f : GoString) (k : Nat),
          cleanLoop rooted (k + 1) (c :: t ++ f) buf dd =
            cleanLoop rooted k (q1 ++ f) buf1 dd1 := by
    intro hc c2 c3
    have hmem : ∃ x ∈ c :: t, (fun x => !IsPathSeparator x) x = false :=
      ⟨'/', hq.mem_slash (List.cons_ne_nil c t), by simp [IsPathSeparator, Separator]⟩
    refine ⟨(c :: t).dropWhile (fun x => !IsPathSeparator x),
      withSeparator rooted buf ++ (c :: t).takeWhile (fun x => !IsPathSeparator x), dd,
      ?_, hq.dropWhile _, rootedInv_withSeparator_append hinv _, ?_⟩
    · rw [List.dropWhile_cons, hc]
      simpa using (List.dropWhile_sublist (fun x => !IsPathSeparator x) (l := t)).length_le
    · intro f k
      obtain ⟨h1, h2⟩ := takeWhile_append_of_mem (fun x => !IsPathSeparator x) f (c :: t) hmem
      rw [List.cons_append, cleanLoop_succ_cons, hc, c2 f, c3 f, ← List.cons_append, h1, h2]
      simp [withSeparator]
  by_cases hc : c = '/'
  · subst hc
    exact ⟨t, buf, dd, le_rfl, hq.tail, hinv, fun f k => by
      rw [List.cons_append, cleanLoop_succ_cons]; simp [IsPathSeparator, Separator]⟩
  · have hcs : IsPathSeparator c = false := by simpa [IsPathSeparator, Separator] using hc
    obtain ⟨b, l, rfl⟩ := hq.exists_cons hc
    by_cases hdot : c = '.'
    · subst hdot
      by_cases hb : b = '/'
      · subst hb
        exact ⟨'/' :: l, buf, dd, le_rfl, hq.tail, hinv, fun f k => by
          rw [List.cons_append, cleanLoop_succ_cons]; simp [IsPathSeparator, Separator]⟩
      · have hbs : IsPathSeparator b = false := by simpa [IsPathSeparator, Separator] using hb
        by_cases hb2 : b = '.'
        · subst hb2
          obtain ⟨b2, l2, rfl⟩ := hq.tail.exists_cons hb
          by_cases hb3 : b2 = '/'
          · subst hb3
            have hstep : ∀ (f : GoString) (k : Nat),
                cleanLoop rooted (k + 1) ('.' :: '.' :: '/' :: l2 ++ f) buf dd =
                  if dd < buf.length then
                    cleanLoop rooted k ('/' :: l2 ++ f)
                      (buf.take (backtrack buf dd (buf.length - 1))) dd
                  else if !rooted then
                    cleanLoop rooted k ('/' :: l2 ++ f)
                      ((if 0 < buf.length then buf ++ [Separator] else buf) ++ ['.', '.'])
                      ((if 0 < buf.length then buf ++ [Separator] else buf) ++ ['.', '.']).length
                  else cleanLoop rooted k ('/' :: l2 ++ f) buf dd := by
              intro f k
              rw [List.cons_append, cleanLoop_succ_cons]
              simp [IsPathSeparator, Separator]
            by_cases hdd : dd < buf.length
            · refine ⟨'/' :: l2, buf.take (backtrack buf dd (buf.length - 1)), dd, by simp,
                hq.tail.tail, ?_, fun f k => by rw [hstep, if_pos hdd]⟩
              intro hr
              obtain ⟨hh, hd⟩ := hinv hr
              refine ⟨?_, hd⟩
              have hbt := le_backtrack buf dd (buf.length - 1) (by omega)
              cases buf with
              | nil => simp at hh
              | cons x xs =>
                have : 1 ≤ backtrack (x :: xs) dd ((x :: xs).length - 1) := le_trans hd hbt
                obtain ⟨m, hm⟩ := Nat.exists_eq_succ_of_ne_zero (by omega : backtrack (x :: xs) dd ((x :: xs).length - 1) ≠ 0)
                rw [hm]
                simpa using hh
            · cases hr : rooted with
              | false =>
                refine ⟨'/' :: l2, (if 0 < buf.length then buf ++ [Separator] else buf) ++ ['.', '.'],
                  ((if 0 < buf.length then buf ++ [Separator] else buf) ++ ['.', '.']).length,
                  by simp, hq.tail.tail, fun h => Bool.noConfusion h, fun f k => ?_⟩
                rw [← hr, hstep, if_neg hdd, hr]
                simp
              | true =>
                refine ⟨'/' :: l2, buf, dd, by simp, hq.tail.tail, hr ▸ hinv, fun f k => ?_⟩
                rw [← hr, hstep, if_neg hdd, hr]
                simp
          · have hb3s : IsPathSeparator b2 = false := by
              simpa [IsPathSeparator, Separator] using hb3
            exact hdefault hcs (fun f => by simp [hbs]) (fun f => by simp [hb3s])
        · exact hdefault hcs (fun f => by simp [hbs]) (fun f => by simp [hb2])
    · exact hdefault hcs (fun f => by simp [hdot]) (fun f => by simp [hdot])

/-- The loop of `Clean` on a slash-ended prefix followed by a plain file name
returns a slash-ended path, the same for every file name, followed by that
name. -/
theorem cleanLoop_append_plain (rooted : Bool) :
    ∀ (n : Nat) (q buf : GoString) (dd : Nat), q.length ≤ n → SlashEnded q →
      RootedInv rooted buf dd →
      ∃ y, SlashEnded y ∧ ∀ f, plainName f = true → ∀ fuel, (q ++ f).length ≤ fuel →
        cleanLoop rooted fuel (q ++ f) buf dd = y ++ f
  | n, [], buf, dd, _, _, hinv =>
    ⟨withSeparator rooted buf, slashEnded_withSeparator hinv, fun f hf fuel hfuel => by
      simpa using cleanLoop_plain rooted hf fuel (by simpa using hfuel) buf dd⟩
  | 0, _ :: _, _, _, hn, _, _ => by simp at hn
  | n + 1, c :: t, buf, dd, hn, hq, hinv => by
    obtain ⟨q1, buf1, dd1, hlen, hq1, hinv1, hstep⟩ := cleanLoop_step rooted hq hinv
    obtain ⟨y, hy, hrec⟩ := cleanLoop_append_plain rooted n q1 buf1 dd1
      (by simp at hn; omega) hq1 hinv1
    refine ⟨y, hy, fun f hf fuel hfuel => ?_⟩
    match fuel, hfuel with
    | k + 1, hfuel =>
      rw [hstep f k]
      apply hrec f hf k
      simp at hfuel ⊢
      omega

/-- The function `Clean` on a slash-ended prefix followed by a plain file name
returns a slash-ended path, the same for every file name, followed by that
name. -/
theorem Clean_append_plain {q : GoString} (hq : SlashEnded q) :
    ∃ y, SlashEnded y ∧ ∀ f, plainName f = true → Clean (q ++ f) = y ++ f := by
  have hfin : ∀ (y f : GoString), plainName f = true →
      (if (y ++ f).length = 0 then ['.'] else y ++ f) = y ++ f := by
    intro y f hf
    have : f ≠ [] := (plainName_iff.1 hf).1
    have : (y ++ f).length ≠ 0 := by
      cases f with
      | nil => exact absurd rfl this
      | cons a l => simp
    rw [if_neg this]
  cases q with
  | nil =>
    obtain ⟨y, hy, hrec⟩ := cleanLoop_append_plain false 0 [] [] 0 le_rfl slashEnded_nil
      (fun h => by cases h)
    refine ⟨y, hy, fun f hf => ?_⟩
    obtain ⟨h0, hs, _, _⟩ := plainName_iff.1 hf
    match f, h0 with
    | c :: t, _ =>
      have hc : IsPathSeparator c = false := by
        have : c ≠ '/' := fun e => hs (e ▸ List.mem_cons_self c t)
        simpa [IsPathSeparator, Separator] using this
      have := hrec (c :: t) hf (c :: t).length (by simp)
      simp only [List.nil_append] at this ⊢
      simp only [Clean, hc, Bool.false_eq_true, if_false, this]
      exact hfin y (c :: t) hf
  | cons c t =>
    by_cases hc : c = '/'
    · subst hc
      obtain ⟨y, hy, hrec⟩ := cleanLoop_append_plain true t.length t ['/'] 1 le_rfl hq.tail
        (fun _ => ⟨rfl, le_rfl⟩)
      refine ⟨y, hy, fun f hf => ?_⟩
      have := hrec f hf ('/' :: t ++ f).length (by simp)
      simp only [List.cons_append, Clean, IsPathSeparator, Separator, beq_self_eq_true, if_true]
      simp only [List.cons_append, Separator] at this
      rw [this]
      exact hfin y f hf
    · have hcs : IsPathSeparator c = false := by simpa [IsPathSeparator, Separator] using hc
      obtain ⟨y, hy, hrec⟩ := cleanLoop_append_plain false (c :: t).length (c :: t) [] 0 le_rfl hq
        (fun h => by cases h)
      refine ⟨y, hy, fun f hf => ?_⟩
      have := hrec f hf (c :: t ++ f).length le_rfl
      simp only [List.cons_append] at this ⊢
      simp only [Clean, hcs, Bool.false_eq_true, if_false, this]
      exact hfin y f hf

end filepath

namespace strings

/-- A pattern that ends with the separator is a prefix of `y ++ f`, for `f`
without separator, exactly when it is a prefix of `y`. -/
theorem isPrefixOf_append_of_slash {f : GoString} (hf : '/' ∉ f) :
    ∀ (o y : GoString), (o ++ ['/']).isPrefixOf (y ++ f) = (o ++ ['/']).isPrefixOf y
  | [], [] => by
    cases f with
    | nil => rfl
    | cons c t =>
      have : c ≠ '/' := fun e => hf (e ▸ List.mem_cons_self c t)
      simp [List.isPrefixOf, Ne.symm this]
  | [], y :: ys => by simp [List.isPrefixOf]
  | o :: os, [] => by
    cases f with
    | nil => rfl
    | cons c t =>
      have ht : '/' ∉ t := fun h => hf (List.mem_cons_of_mem c h)
      have ih := isPrefixOf_append_of_slash ht os []
      simp only [List.nil_append] at ih
      have hnil : (os ++ ['/']).isPrefixOf ([] : GoString) = false := by
        cases os <;> rfl
      simp [List.isPrefixOf, ih, hnil]
  | o :: os, y :: ys => by
    have ih := isPrefixOf_append_of_slash hf os ys
    simp [List.isPrefixOf, ih]

theorem replaceLoop_succ (old new : GoString) (fuel : Nat) (s : GoString) :
    replaceLoop old new (fuel + 1) s =
      if old.isPrefixOf s then new ++ replaceLoop old new fuel (s.drop old.length)
      else
        match s with
        | [] => []
        | c :: t => c :: replaceLoop old new fuel t := rfl

theorem replaceLoop_of_not_mem {o : GoString} (new : GoString) :
    ∀ (fuel : Nat) (f : GoString), '/' ∉ f → replaceLoop (o ++ ['/']) new fuel f = f
  | 0, _, _ => rfl
  | fuel + 1, [], _ => by
    have hnil : (o ++ ['/']).isPrefixOf ([] : GoString) = false := by
      cases o <;> rfl
    simp [replaceLoop, hnil]
  | fuel + 1, c :: t, hf => by
    have ht : '/' ∉ t := fun h => hf (List.mem_cons_of_mem c h)
    have hp : (o ++ ['/']).isPrefixOf (c :: t) = false := by
      have := isPrefixOf_append_of_slash hf o []
      simp only [List.nil_append] at this
      rw [this]
      cases o <;> rfl
    simp [replaceLoop, hp, replaceLoop_of_not_mem new fuel t ht]

/-- The scan of `Replace` for a pattern that ends with the separator, on a
path `y` followed by a name without separator: the name is left alone, and what
comes before it does not depend on the name. -/
theorem replaceLoop_append (o new : GoString) :
    ∀ (n : Nat) (y : GoString), y.length ≤ n →
      ∃ z, ∀ f, '/' ∉ f → ∀ fuel, (y ++ f).length ≤ fuel →
        replaceLoop (o ++ ['/']) new fuel (y ++ f) = z ++ f
  | _, [], _ => ⟨[], fun f hf fuel _ => by
      simpa using replaceLoop_of_not_mem new fuel f hf⟩
  | 0, _ :: _, hn => by simp at hn
  | n + 1, c :: t, hn => by
    cases hp : (o ++ ['/']).isPrefixOf (c :: t) with
    | true =>
      have hle : (o ++ ['/']).length ≤ (c :: t).length :=
        (List.isPrefixOf_iff_prefix.1 hp).length_le
      obtain ⟨z, hz⟩ := replaceLoop_append o new n ((c :: t).drop (o ++ ['/']).length) (by
        simp only [List.length_drop, List.length_append, List.length_cons, List.length_nil] at hn ⊢
        omega)
      refine ⟨new ++ z, fun f hf fuel hfuel => ?_⟩
      match fuel, hfuel with
      | k + 1, hfuel =>
        have hp2 : (o ++ ['/']).isPrefixOf (c :: t ++ f) = true := by
          rw [isPrefixOf_append_of_slash hf]; exact hp
        have hdrop : (c :: t ++ f).drop (o ++ ['/']).length =
            (c :: t).drop (o ++ ['/']).length ++ f := List.drop_append_of_le_length hle
        rw [replaceLoop_succ, if_pos hp2, hdrop, hz f hf k (by
          simp only [List.length_drop, List.length_append, List.length_cons, List.length_nil]
            at hfuel hle ⊢
          omega), List.append_assoc]
    | false =>
      obtain ⟨z, hz⟩ := replaceLoop_append o new n t (by simp at hn; omega)
      refine ⟨c :: z, fun f hf fuel hfuel => ?_⟩
      match fuel, hfuel with
      | k + 1, hfuel =>
        have hp2 : (o ++ ['/']).isPrefixOf (c :: t ++ f) = false := by
          rw [isPrefixOf_append_of_slash hf]; exact hp
        rw [replaceLoop_succ, hp2]
        simp only [Bool.false_eq_true, if_false, List.cons_append]
        rw [hz f hf k (by simp at hfuel ⊢; omega)]

/-- The function `Replace` that deletes a pattern ending with the separator,
on a path followed by a name without separator. -/
theorem Replace_append (o y : GoString) :
    ∃ z, ∀ f, '/' ∉ f → Replace (y ++ f) (o ++ ['/']) [] = z ++ f := by
  obtain ⟨z, hz⟩ := replaceLoop_append o [] y.length y le_rfl
  refine ⟨z, fun f hf => ?_⟩
  have h1 : o ++ ['/'] ≠ [] := by simp
  rw [Replace, if_neg h1, if_neg h1]
  exact hz f hf _ le_rfl

end strings

namespace filepath

theorem dirPrefixRev_append {f : GoString} (hf : '/' ∉ f) (z : GoString) :
    dirPrefixRev (f ++ z) = dirPrefixRev z := by
  induction f with
  | nil => rfl
  | cons c t ih =>
    have hc : IsPathSeparator c = false := by
      have : c ≠ '/' := fun e => hf (e ▸ List.mem_cons_self c t)
      simpa [IsPathSeparator, Separator] using this
    have ht : '/' ∉ t := fun h => hf (List.mem_cons_of_mem c h)
    simp [dirPrefixRev, hc, ih ht]

/-- The function `Dir` does not look at a last element without separator. -/
theorem Dir_append {f : GoString} (hf : '/' ∉ f) (z : GoString) : Dir (z ++ f) = Dir z := by
  have hr : '/' ∉ f.reverse := by simpa using hf
  unfold Dir
  rw [List.reverse_append, dirPrefixRev_append hr]

end filepath

/-- The argument of `Clean` inside `Join [cwd, ".", d/f]` is a slash-ended
prefix followed by the file name. -/
theorem Join_cwd_append (cwd d : GoString) :
    ∃ y, SlashEnded y ∧ ∀ f, plainName f = true →
      filepath.Join [cwd, ".".toList, d ++ ['/'] ++ f] = y ++ f := by
  by_cases hcwd : cwd = []
  · obtain ⟨y, hy, hrec⟩ := filepath.Clean_append_plain
      (slashEnded_concat (".".toList ++ ['/'] ++ d))
    refine ⟨y, hy, fun f hf => ?_⟩
    rw [← hrec f hf]
    simp [filepath.Join, strings.Join, hcwd, filepath.Separator]
  · obtain ⟨y, hy, hrec⟩ := filepath.Clean_append_plain
      (slashEnded_concat (cwd ++ ['/'] ++ ".".toList ++ ['/'] ++ d))
    refine ⟨y, hy, fun f hf => ?_⟩
    rw [← hrec f hf]
    simp [filepath.Join, strings.Join, hcwd, filepath.Separator]

/-- The package of a file `d/f` with a plain file name `f` does not depend on
`f`. -/
theorem getPackage_dir_const (env : Env) (cwd d : GoString) (hcwd : env.getwd = some cwd) :
    ∃ pkg, ∀ f, plainName f = true → getPackage env (d ++ ['/'] ++ f) = some pkg := by
  obtain ⟨y1, hy1, hjoin⟩ := Join_cwd_append cwd d
  obtain ⟨y2, _, hclean⟩ := filepath.Clean_append_plain hy1
  obtain ⟨z, hz⟩ := strings.Replace_append
    (filepath.ToSlash (filepath.Clean (filepath.Join [env.gopath, "src".toList]))) y2
  refine ⟨filepath.Dir z, fun f hf => ?_⟩
  have hs : '/' ∉ f := (plainName_iff.1 hf).2.1
  have hsl : "/".toList = ['/'] := rfl
  simp only [getPackage, hcwd, hjoin f hf, hclean f hf, filepath.ToSlash, hsl]
  simp only [filepath.ToSlash] at hz
  rw [hz f hs, filepath.Dir_append hs]

/-- C10: two files `d/f` and `d/g` of the same directory `d`, with plain file
names `f` and `g`, get the same package identifier from `getPackage`, whatever
the working directory and the value of `GOPATH`. -/
theorem getPackage_same_directory (env : Env) (cwd d f g : GoString)
    (hcwd : env.getwd = some cwd) (hf : plainName f = true) (hg : plainName g = true) :
    ∃ pkg, getPackage env (d ++ ['/'] ++ f) = some pkg ∧
      getPackage env (d ++ ['/'] ++ g) = some pkg := by
  obtain ⟨pkg, h⟩ := getPackage_dir_const env cwd d hcwd
  exact ⟨pkg, h f hf, h g hg⟩

/-- The statement of C10 on the files `a/x.go` and `a/y.go`. -/
theorem getPackage_same_directory_witness :
    ∃ pkg, getPackage sampleEnv ("a".toList ++ ['/'] ++ "x.go".toList) = some pkg ∧
      getPackage sampleEnv ("a".toList ++ ['/'] ++ "y.go".toList) = some pkg :=
  getPackage_same_directory sampleEnv "/go/src/github.com/u/r".toList "a".toList
    "x.go".toList "y.go".toList rfl (by decide) (by decide)

/-! ## Classification of imports and package identifiers: evaluations -/

/-- C8: the repository `.` in the working directory `/go/src/github.com/u/r` has
the normalized location `<GOPATH>/src/github.com/u/r`, yet `getPackage` maps it
to the parent `github.com/u`, and `inPackage` classifies the import
`github.com/u/other/pkg` local although it does not contain `github.com/u/r`. -/
theorem inPackage_sibling_repository :
    filepath.Clean (filepath.Join ["/go/src/github.com/u/r".toList, ".".toList,
        sampleAnalyzer.repo]) = "/go/src/github.com/u/r".toList ∧
      getPackage sampleEnv sampleAnalyzer.repo = some "github.com/u".toList ∧
      sampleAnalyzer.inPackage sampleEnv "github.com/u/other/pkg".toList = some true ∧
      strings.Contains "github.com/u/other/pkg".toList "github.com/u/r".toList = false := by
  decide

/-- C9: for the absolute file name `/go/src/github.com/u/r/a/x.go`, whose location
is `<GOPATH>/src/github.com/u/r/a/x.go`, `getPackage` called in the working
directory `/home/u` returns `/home/ugithub.com/u/r/a` and not the parent
directory `github.com/u/r/a` of the root-relative path; and for the relative file
name `x/go/src/y/z.go` in the working directory `/go/src/github.com/u/r` it
returns `github.com/u/r/xy`, every occurrence of the root being deleted. -/
theorem getPackage_absolute_file_name :
    getPackage homeEnv "/go/src/github.com/u/r/a/x.go".toList =
        some "/home/ugithub.com/u/r/a".toList ∧
      filepath.Dir "github.com/u/r/a/x.go".toList = "github.com/u/r/a".toList ∧
      getPackage sampleEnv "x/go/src/y/z.go".toList = some "github.com/u/r/xy".toList ∧
      filepath.Dir "github.com/u/r/x/go/src/y/z.go".toList =
        "github.com/u/r/x/go/src/y".toList := by
  decide

/-! ## The iteration bounds are enough -/

namespace filepath

/-- The loop of `Clean` does not depend on the bound on its iterations, once the
bound is at least the length of the unread input. -/
theorem cleanLoop_bound_irrelevant (rooted : Bool) :
    ∀ (n m : Nat) (p buf : GoString) (dd : Nat), p.length ≤ n → p.length ≤ m →
      cleanLoop rooted n p buf dd = cleanLoop rooted m p buf dd
  | n, m, [], buf, dd, _, _ => by rw [cleanLoop_nil, cleanLoop_nil]
  | 0, _, _ :: _, _, _, hn, _ => by simp at hn
  | _ + 1, 0, _ :: _, _, _, _, hm => by simp at hm
  | n + 1, m + 1, c :: t, buf, dd, hn, hm => by
    have ht : t.length ≤ n := by simpa using hn
    have ht2 : t.length ≤ m := by simpa using hm
    have htl : t.tail.length ≤ n := by simp; omega
    have htl2 : t.tail.length ≤ m := by simp; omega
    rw [cleanLoop_succ_cons, cleanLoop_succ_cons]
    by_cases hc : IsPathSeparator c = true
    · rw [if_pos hc, if_pos hc]
      exact cleanLoop_bound_irrelevant rooted n m t buf dd ht ht2
    · have hd : ((c :: t).dropWhile (fun x => !IsPathSeparator x)).length ≤ t.length := by
        have hc1 : (!IsPathSeparator c) = true := by simpa using hc
        rw [List.dropWhile_cons, if_pos hc1]
        exact (List.dropWhile_sublist (fun x => !IsPathSeparator x) (l := t)).length_le
      rw [if_neg hc, if_neg hc]
      split_ifs
      all_goals first
        | exact cleanLoop_bound_irrelevant rooted n m _ _ _ ht ht2
        | exact cleanLoop_bound_irrelevant rooted n m _ _ _ htl htl2
        | exact cleanLoop_bound_irrelevant rooted n m _ _ _ (le_trans hd ht) (le_trans hd ht2)

/-- The bound that `Clean` passes to its loop can be replaced by any larger
one: the loop has finished before the bound is reached. -/
theorem Clean_bound_enough (c : Char) (t : GoString) (extra : Nat) :
    Clean (c :: t) =
      (fun out : GoString => if out.length = 0 then ['.'] else out)
        (if IsPathSeparator c then cleanLoop true ((c :: t).length + extra) t [Separator] 1
          else cleanLoop false ((c :: t).length + extra) (c :: t) [] 0) := by
  unfold Clean
  simp only []
  split
  · rw [cleanLoop_bound_irrelevant true (c :: t).length ((c :: t).length + extra) t _ _
      (by simp) (by simp; omega)]
  · rw [cleanLoop_bound_irrelevant false (c :: t).length ((c :: t).length + extra) (c :: t) _ _
      le_rfl (by omega)]

end filepath

namespace strings

/-- The scan of `Replace` for a non-empty pattern does not depend on the bound
on its iterations, once the bound is at least the length of the unread input. -/
theorem replaceLoop_bound_irrelevant (old new : GoString) (hold : old ≠ []) :
    ∀ (n m : Nat) (s : GoString), s.length ≤ n → s.length ≤ m →
      replaceLoop old new n s = replaceLoop old new m s
  | 0, 0, _, _, _ => rfl
  | 0, m + 1, [], _, _ => by
    have : old.isPrefixOf ([] : GoString) = false := by
      cases old with
      | nil => exact absurd rfl hold
      | cons a l => rfl
    simp [replaceLoop, this]
  | n + 1, 0, [], _, _ => by
    have : old.isPrefixOf ([] : GoString) = false := by
      cases old with
      | nil => exact absurd rfl hold
      | cons a l => rfl
    simp [replaceLoop, this]
  | 0, _ + 1, _ :: _, hn, _ => by simp at hn
  | _ + 1, 0, _ :: _, _, hm => by simp at hm
  | n + 1, m + 1, s, hn, hm => by
    rw [replaceLoop_succ, replaceLoop_succ]
    have hpos : 0 < old.length := List.length_pos.2 hold
    split
    · rename_i hp
      have hle : old.length ≤ s.length := (List.isPrefixOf_iff_prefix.1 hp).length_le
      rw [replaceLoop_bound_irrelevant old new hold n m (s.drop old.length)
        (by rw [List.length_drop]; omega) (by rw [List.length_drop]; omega)]
    · cases s with
      | nil => rfl
      | cons c t =>
        simp only []
        rw [replaceLoop_bound_irrelevant old new hold n m t (by simpa using hn)
          (by simpa using hm)]

end strings

/-! ## Fatal exits, the parser and the constructor -/

/-- C11, as stated, fails: with `GOPATH` unset (empty) and the working directory
`/home/u/proj`, `getPackage` does not exit; it returns an identifier for
`a/x.go`. -/
theorem getPackage_empty_gopath_returns :
    getPackage ⟨some "/home/u/proj".toList, []⟩ "a/x.go".toList =
      some "/home/u/proj/a".toList := by
  decide

/-- C11, amended: `getPackage` exits through `log.Fatal` exactly when `os.Getwd`
fails; the value of `GOPATH` never makes it exit, and with `GOPATH` unset or
empty it returns an identifier for every file name. -/
theorem getPackage_fatal_iff_getwd_fails :
    (∀ (env : Env) (fname : GoString), getPackage env fname = none ↔ env.getwd = none) ∧
      ∀ (cwd fname : GoString), ∃ pkg, getPackage ⟨some cwd, []⟩ fname = some pkg := by
  constructor
  · intro env fname
    unfold getPackage
    cases env.getwd <;> simp
  · intro cwd fname
    exact ⟨_, rfl⟩

/-- C12: when the parser yields no syntax tree, `analyzeFile` does not complete:
it dereferences the nil tree, whatever the table; and the run of the program on
a directory that holds such a file aborts with that panic. -/
theorem analyzeFile_unreadable_panics :
    (∀ (env : Env) (stat : GoString → Option FileInfo) (walk : GoString → List WalkEntry)
        (a : Analyzer) (fname : GoString),
        a.analyzeFile env ⟨stat, fun _ => ParseResult.unreadable, walk⟩ fname =
          Except.error Abort.nilPointer) ∧
      main sampleEnv unreadableFs ["go-instabl".toList, ".".toList] =
        RunResult.aborted Abort.nilPointer := by
  constructor
  · intro env stat walk a fname
    rfl
  · decide

/-- C15, as stated, fails: on the regular file `a.go` the program stops in
`NewAnalyzer` with exit status 2 and analyses nothing. -/
theorem main_on_regular_file_exits :
    isDir unreadableFs "a.go".toList = false ∧
      main sampleEnv unreadableFs ["go-instabl".toList, "a.go".toList] =
        RunResult.exit 2 "analyze failed: provided repo 'a.go' is not a folder\n".toList := by
  decide

/-- C15, amended: for a root path that names an existing regular file,
`NewAnalyzer` returns an error and the program exits with status 2 without
analysing anything; `Analyze` itself, on an analyzer whose repository is that
file, skips the walk and analyses exactly that file. -/
theorem pipeline_on_regular_file (env : Env) (fs : FileSystem) (repo : GoString)
    (hfile : fs.stat repo = some ⟨false⟩) :
    NewAnalyzer fs repo =
        Except.error ("provided repo '".toList ++ repo ++ "' is not a folder".toList) ∧
      (∀ prog : GoString, main env fs [prog, repo] =
        RunResult.exit 2 ("analyze failed: ".toList ++
          ("provided repo '".toList ++ repo ++ "' is not a folder".toList) ++ ['\n'])) ∧
      ∀ stats : Stats, (Analyzer.mk stats repo).Analyze env fs =
        (Analyzer.mk stats repo).analyzeFile env fs repo := by
  have hdir : isDir fs repo = false := by simp [isDir, hfile]
  have hnew : NewAnalyzer fs repo =
      Except.error ("provided repo '".toList ++ repo ++ "' is not a folder".toList) := by
    simp [NewAnalyzer, hdir]
  refine ⟨hnew, fun prog => ?_, fun stats => ?_⟩
  · simp only [main, hnew]
  · simp [Analyzer.Analyze, hdir]

/-- The statement of C15, amended, on the regular file `a.go`. -/
theorem pipeline_on_regular_file_witness :
    NewAnalyzer unreadableFs "a.go".toList =
        Except.error ("provided repo '".toList ++ "a.go".toList ++ "' is not a folder".toList) ∧
      (∀ prog : GoString, main sampleEnv unreadableFs [prog, "a.go".toList] =
        RunResult.exit 2 ("analyze failed: ".toList ++
          ("provided repo '".toList ++ "a.go".toList ++ "' is not a folder".toList) ++ ['\n'])) ∧
      ∀ stats : Stats, (Analyzer.mk stats "a.go".toList).Analyze sampleEnv unreadableFs =
        (Analyzer.mk stats "a.go".toList).analyzeFile sampleEnv unreadableFs "a.go".toList :=
  pipeline_on_regular_file sampleEnv unreadableFs "a.go".toList (by decide)

/-- C16: `NewAnalyzer` returns an analyzer with an empty table and the given
path when `os.Stat` succeeds on the path and reports a directory, and an error
(no analyzer) in every other case. -/
theorem NewAnalyzer_ok_iff_directory (fs : FileSystem) (repo : GoString) :
    (fs.stat repo = some ⟨true⟩ ∧ NewAnalyzer fs repo = Except.ok ⟨∅, repo⟩) ∨
      (fs.stat repo ≠ some ⟨true⟩ ∧ ∃ msg, NewAnalyzer fs repo = Except.error msg) := by
  cases h : fs.stat repo with
  | none =>
    right
    exact ⟨by simp, "provided repo '".toList ++ repo ++ "' is not a folder".toList, by
      unfold NewAnalyzer isDir; rw [h]; rfl⟩
  | some fi =>
    cases fi with
    | mk d =>
      cases d with
      | true => left; exact ⟨rfl, by simp [NewAnalyzer, isDir, h]⟩
      | false =>
        right
        exact ⟨by simp, "provided repo '".toList ++ repo ++ "' is not a folder".toList, by
          unfold NewAnalyzer isDir; rw [h]; rfl⟩

/-- C17: a successfully parsed file without imports leaves the table as it
was: after `analyzeFile` on `a/x.go` with an empty table, the package
`github.com/u/r/a` of the file has no record, and the report of the run on that
tree is empty. -/
theorem analyzeFile_no_imports_no_record :
    (∀ (env : Env) (stat : GoString → Option FileInfo) (walk : GoString → List WalkEntry)
        (a : Analyzer) (fname : GoString),
        a.analyzeFile env ⟨stat, fun _ => ParseResult.ok [], walk⟩ fname = Except.ok a) ∧
      getPackage sampleEnv "a/x.go".toList = some "github.com/u/r/a".toList ∧
      sampleAnalyzer.analyzeFile sampleEnv noImportFs "a/x.go".toList =
        Except.ok sampleAnalyzer ∧
      sampleAnalyzer.stats.lookup "github.com/u/r/a".toList = none ∧
      main sampleEnv noImportFs ["go-instabl".toList, ".".toList] =
        RunResult.reported ['\n'] := by
  refine ⟨fun env stat walk a fname => rfl, by decide, rfl, rfl, by decide⟩

/-! ## The report does not depend on the order of the entries -/

theorem stringLe_antisymm : ∀ a b : GoString,
    stringLe a b = true → stringLe b a = true → a = b
  | [], [], _, _ => rfl
  | [], _ :: _, _, h => by simp [stringLe] at h
  | _ :: _, [], h, _ => by simp [stringLe] at h
  | a :: as, b :: bs, hab, hba => by
    simp only [stringLe] at hab hba
    split_ifs at hab hba
    all_goals first
      | omega
      | skip
    have hn : a.toNat = b.toNat := by omega
    have hc : a = b := by rw [← Char.ofNat_toNat a, ← Char.ofNat_toNat b, hn]
    rw [hc, stringLe_antisymm as bs hab hba]

instance stringLe_isAntisymm : IsAntisymm GoString (fun a b => stringLe a b = true) :=
  ⟨stringLe_antisymm⟩

theorem sortStrings_eq_of_perm {l1 l2 : List GoString} (h : l1.Perm l2) :
    sortStrings l1 = sortStrings l2 :=
  List.eq_of_perm_of_sorted
    (((sortStrings_perm l1).trans h).trans (sortStrings_perm l2).symm)
    (sortStrings_sorted l1) (sortStrings_sorted l2)

/-- C18: the text of `Report` is a function of the table alone: two enumerations
of the same entries, in whatever order the `range` loop visits them, give the
same lines and the same text. -/
theorem Report_order_independent (s1 s2 : Stats) (h : s1.entries.Perm s2.entries) :
    reportLines s1 = reportLines s2 ∧ Report s1 = Report s2 := by
  have hl : reportLines s1 = reportLines s2 :=
    sortStrings_eq_of_perm (h.map _)
  exact ⟨hl, by unfold Report; rw [hl]⟩

/-- The statement of C18 on a table with the packages `a` and `b`, enumerated in
both orders. -/
theorem Report_order_independent_witness :
    reportLines ((∅ : Stats).insert "a".toList ⟨1, 0⟩ |>.insert "b".toList ⟨0, 1⟩) =
        reportLines ((∅ : Stats).insert "b".toList ⟨0, 1⟩ |>.insert "a".toList ⟨1, 0⟩) ∧
      Report ((∅ : Stats).insert "a".toList ⟨1, 0⟩ |>.insert "b".toList ⟨0, 1⟩) =
        Report ((∅ : Stats).insert "b".toList ⟨0, 1⟩ |>.insert "a".toList ⟨1, 0⟩) :=
  Report_order_independent _ _ (AList.insert_insert_of_ne ∅ (by decide))

/-! ## Record updates commute and only grow -/

theorem Stats.SameMap.get_eq {s t : Stats} (h : s.SameMap t) (k : GoString) :
    s.get k = t.get k := by
  unfold Stats.get
  rw [h k]

theorem Stats.SameMap.bump_congr {s t : Stats} (h : s.SameMap t) (k : GoString) (a b : Bool) :
    (s.bump k a b).SameMap (t.bump k a b) := by
  intro k'
  rw [Stats.lookup_bump, Stats.lookup_bump, h.get_eq k, h k']

theorem Stats.bump_comm (s : Stats) (k1 k2 : GoString) (a1 b1 a2 b2 : Bool) :
    ((s.bump k1 a1 b1).bump k2 a2 b2).SameMap ((s.bump k2 a2 b2).bump k1 a1 b1) := by
  intro k
  simp only [Stats.lookup_bump, Stats.get_bump]
  by_cases h12 : k1 = k2
  · subst h12
    by_cases hk : k = k1
    · simp only [hk, if_true, Option.some.injEq, Stability.mk.injEq]
      exact ⟨incr_comm _ _ _, incr_comm _ _ _⟩
    · simp only [hk, if_false]
  · have h21 : ¬ k2 = k1 := fun e => h12 e.symm
    by_cases hk1 : k = k1
    · subst hk1
      simp only [h12, h21, if_true, if_false]
    · by_cases hk2 : k = k2
      · subst hk2
        simp only [h12, h21, if_true, if_false]
      · simp only [hk1, hk2, if_false]

theorem Stats.SameMap.applyBumps_congr {s t : Stats} (h : s.SameMap t)
    (ops : List (GoString × Bool × Bool)) : (s.applyBumps ops).SameMap (t.applyBumps ops) := by
  induction ops generalizing s t with
  | nil => exact h
  | cons o rest ih => exact ih (h.bump_congr o.1 o.2.1 o.2.2)

theorem Stats.applyBumps_perm {ops1 ops2 : List (GoString × Bool × Bool)} (h : ops1.Perm ops2) :
    ∀ s : Stats, (s.applyBumps ops1).SameMap (s.applyBumps ops2) := by
  induction h with
  | nil => intro s k; rfl
  | cons o _ ih => intro s; exact ih (s.bump o.1 o.2.1 o.2.2)
  | swap o1 o2 l =>
    intro s
    exact Stats.SameMap.applyBumps_congr (Stats.bump_comm s o2.1 o1.1 o2.2.1 o2.2.2 o1.2.1 o1.2.2) l
  | trans _ _ ih1 ih2 => intro s k; rw [ih1 s k, ih2 s k]

theorem Stats.SameMap.entries_perm {s t : Stats} (h : s.SameMap t) :
    s.entries.Perm t.entries :=
  List.lookup_ext s.nodupKeys t.nodupKeys (fun x y => by
    have := h x
    unfold AList.lookup at this
    rw [this])

/-- C19: the loop bodies of `analyzeFile` for two (file, import) pairs, local or
external, give the same table in either order, and more generally a run of loop
bodies gives the same table for every order of its steps: the same record under
every key, hence the same entries up to their enumeration. -/
theorem analyzeSteps_commute (env : Env) (cwd : GoString) (h : env.getwd = some cwd) :
    (∀ (a : Analyzer) (e1 e2 : GoString × GoString),
      ∃ a12 a21, a.analyzeSteps env [e1, e2] = some a12 ∧
        a.analyzeSteps env [e2, e1] = some a21 ∧
        a12.stats.SameMap a21.stats ∧ a12.stats.entries.Perm a21.stats.entries ∧
        a12.repo = a21.repo) ∧
      ∀ (a : Analyzer) (steps1 steps2 : List (GoString × GoString)), steps1.Perm steps2 →
        ∃ a1 a2, a.analyzeSteps env steps1 = some a1 ∧ a.analyzeSteps env steps2 = some a2 ∧
          a1.stats.SameMap a2.stats ∧ a1.stats.entries.Perm a2.stats.entries ∧
          a1.repo = a2.repo := by
  have hgen : ∀ (a : Analyzer) (steps1 steps2 : List (GoString × GoString)),
      steps1.Perm steps2 →
      ∃ a1 a2, a.analyzeSteps env steps1 = some a1 ∧ a.analyzeSteps env steps2 = some a2 ∧
        a1.stats.SameMap a2.stats ∧ a1.stats.entries.Perm a2.stats.entries ∧
        a1.repo = a2.repo := by
    intro a steps1 steps2 hp
    have hs : (a.stats.applyBumps (steps1.flatMap (bodyOps env a.repo))).SameMap
        (a.stats.applyBumps (steps2.flatMap (bodyOps env a.repo))) :=
      Stats.applyBumps_perm (hp.flatMap_right _) a.stats
    exact ⟨_, _, analyzeSteps_eq_applyBumps h steps1 a, analyzeSteps_eq_applyBumps h steps2 a,
      hs, hs.entries_perm, rfl⟩
  exact ⟨fun a e1 e2 => hgen a [e1, e2] [e2, e1] (List.Perm.swap e2 e1 []), hgen⟩

/-- The statement of C19 in the sample environment. -/
theorem analyzeSteps_commute_witness :
    (∀ (a : Analyzer) (e1 e2 : GoString × GoString),
      ∃ a12 a21, a.analyzeSteps sampleEnv [e1, e2] = some a12 ∧
        a.analyzeSteps sampleEnv [e2, e1] = some a21 ∧
        a12.stats.SameMap a21.stats ∧ a12.stats.entries.Perm a21.stats.entries ∧
        a12.repo = a21.repo) ∧
      ∀ (a : Analyzer) (steps1 steps2 : List (GoString × GoString)), steps1.Perm steps2 →
        ∃ a1 a2, a.analyzeSteps sampleEnv steps1 = some a1 ∧
          a.analyzeSteps sampleEnv steps2 = some a2 ∧
          a1.stats.SameMap a2.stats ∧ a1.stats.entries.Perm a2.stats.entries ∧
          a1.repo = a2.repo :=
  analyzeSteps_commute sampleEnv "/go/src/github.com/u/r".toList rfl

theorem Stats.GrowsTo.refl (s : Stats) : s.GrowsTo s :=
  fun _ v hv => ⟨v, hv, le_rfl, le_rfl⟩

theorem Stats.GrowsTo.trans {s t u : Stats} (h1 : s.GrowsTo t) (h2 : t.GrowsTo u) :
    s.GrowsTo u := by
  intro k v hv
  obtain ⟨v1, hv1, hi1, ho1⟩ := h1 k v hv
  obtain ⟨v2, hv2, hi2, ho2⟩ := h2 k v1 hv1
  exact ⟨v2, hv2, le_trans hi1 hi2, le_trans ho1 ho2⟩

/-- One record update whose increments start below `maxInt64` keeps every
record and lowers no counter. -/
theorem Stats.growsTo_bump (s : Stats) (k : GoString) (i o : Bool)
    (hi : i = true → (s.get k).FanIn < maxInt64)
    (ho : o = true → (s.get k).FanOut < maxInt64) : s.GrowsTo (s.bump k i o) := by
  intro k' v hv
  rw [Stats.lookup_bump]
  split
  · rename_i hk
    subst hk
    have hg : s.get k' = v := by simp [Stats.get, hv]
    rw [hg] at hi ho ⊢
    exact ⟨_, rfl, le_incr hi, le_incr ho⟩
  · exact ⟨v, hv, le_rfl, le_rfl⟩

theorem Stats.get_bump_FanIn (s : Stats) (k k' : GoString) (o : Bool) :
    ((s.bump k false o).get k').FanIn = (s.get k').FanIn := by
  rw [Stats.get_bump]
  split
  · rename_i hk
    rw [hk]
    rfl
  · rfl

/-- C20, as stated, fails: in a table where the package `github.com/u/r/b` has
the fan-in `maxInt64`, the loop body for a local import of that package leaves
it with the fan-in `minInt64`, lower than before; and the run of `2^63` loop
bodies for a file that imports its own package, from the empty table, returns a
table whose record has negative counters. -/
theorem record_shrinks_at_maxInt64 :
    (∃ a1, maxInAnalyzer.analyzeFileBody sampleEnv "a/x.go".toList
        "\"github.com/u/r/b\"".toList = some a1 ∧
      maxInAnalyzer.stats.lookup "github.com/u/r/b".toList = some ⟨maxInt64, 0⟩ ∧
      a1.stats.lookup "github.com/u/r/b".toList = some ⟨minInt64, 0⟩ ∧
      minInt64 < maxInt64) ∧
      ∃ a2, (Analyzer.mk ∅ ".".toList).analyzeSteps sampleEnv
          (selfLoopRun (9223372036854775807 + 1)) = some a2 ∧
        a2.stats.lookup "github.com/u/r/a".toList = some ⟨minInt64, minInt64⟩ ∧
        minInt64 < 0 := by
  constructor
  · refine ⟨_, @analyzeFileBody_of_local _ _ _ _ "github.com/u/r/a".toList (by decide)
      (by decide), by decide, ?_, by decide⟩
    simp only []
    have hk : strings.Replace "\"github.com/u/r/b\"".toList ['"'] [] =
        "github.com/u/r/b".toList := by decide
    rw [hk, Stats.lookup_set_self]
    decide
  · refine ⟨_, analyzeSteps_selfLoopRun 9223372036854775807, ?_, by decide⟩
    simp only []
    rw [wrapInt64_two_pow_63]
    exact Stats.lookup_singleton_self _ _

/-- C20, amended: a loop body of `analyzeFile` that, when its import is local,
finds the fan-out of the owner and the fan-in of the imported package below
`maxInt64`, returns a table in which every record present before is still
present, with `FanIn` and `FanOut` at least as high as before; and every record
of a table reached from the empty table by a run of loop bodies of which at most
`maxInt64` are for local imports has `FanIn ≥ 0` and `FanOut ≥ 0`. -/
theorem records_only_grow (env : Env) (cwd : GoString) (h : env.getwd = some cwd) :
    (∀ (a : Analyzer) (fname imp : GoString),
      (a.inPackage env (strings.Replace imp ['"'] []) = some true →
        (∀ fo, getPackage env fname = some fo → (a.stats.get fo).FanOut < maxInt64) ∧
          (a.stats.get (strings.Replace imp ['"'] [])).FanIn < maxInt64) →
      ∃ a1, a.analyzeFileBody env fname imp = some a1 ∧
        ∀ k v, a.stats.lookup k = some v →
          ∃ v1, a1.stats.lookup k = some v1 ∧ v.FanIn ≤ v1.FanIn ∧ v.FanOut ≤ v1.FanOut) ∧
      ∀ (repo : GoString) (steps : List (GoString × GoString)),
        (countLocal env (Analyzer.mk ∅ repo) steps : Int) ≤ maxInt64 →
        ∃ a1, (Analyzer.mk ∅ repo).analyzeSteps env steps = some a1 ∧
          ∀ k v, a1.stats.lookup k = some v → 0 ≤ v.FanIn ∧ 0 ≤ v.FanOut := by
  constructor
  · intro a fname imp hlt
    obtain ⟨fo, hfo⟩ := getPackage_isSome h fname
    obtain ⟨pkg, hpkg⟩ := getPackage_isSome h a.repo
    have hin : a.inPackage env (strings.Replace imp ['"'] []) =
        some (strings.Contains (strings.Replace imp ['"'] []) pkg) := by
      simp [Analyzer.inPackage, hpkg]
    refine ⟨_, analyzeFileBody_eq_applyBumps h a (fname, imp), ?_⟩
    simp only [bodyOps, hfo, hpkg]
    cases hc : strings.Contains (strings.Replace imp ['"'] []) pkg with
    | false =>
      exact Stats.growsTo_bump a.stats fo false false (fun e => Bool.noConfusion e)
        (fun e => Bool.noConfusion e)
    | true =>
      rw [hc] at hin
      obtain ⟨h1, h2⟩ := hlt hin
      have g1 : a.stats.GrowsTo (a.stats.bump fo false true) :=
        Stats.growsTo_bump a.stats fo false true (fun e => Bool.noConfusion e)
          (fun _ => h1 fo hfo)
      have g2 : (a.stats.bump fo false true).GrowsTo
          ((a.stats.bump fo false true).bump (strings.Replace imp ['"'] []) true false) :=
        Stats.growsTo_bump _ _ true false
          (fun _ => by rw [Stats.get_bump_FanIn]; exact h2) (fun e => Bool.noConfusion e)
      exact g1.trans g2
  · intro repo steps hmax
    obtain ⟨a1, h1, _, _, _, hb⟩ := analyzeSteps_bounded h steps (Analyzer.mk ∅ repo) 0
      Stats.bounded_empty (by simpa using hmax)
    exact ⟨a1, h1, fun k v hv => ⟨(hb k v hv).1.1, (hb k v hv).2.1⟩⟩

/-- The statement of C20, amended, in the sample environment: the loop body for
the file `a/x.go` that imports `github.com/u/r/b`, on the empty table, and a run
of three imports from the empty table. -/
theorem records_only_grow_witness :
    (∃ a1, sampleAnalyzer.analyzeFileBody sampleEnv "a/x.go".toList
        "\"github.com/u/r/b\"".toList = some a1 ∧
      ∀ k v, sampleAnalyzer.stats.lookup k = some v →
        ∃ v1, a1.stats.lookup k = some v1 ∧ v.FanIn ≤ v1.FanIn ∧ v.FanOut ≤ v1.FanOut) ∧
      ∃ a1, (Analyzer.mk ∅ ".".toList).analyzeSteps sampleEnv
          [("a/x.go".toList, "\"github.com/u/r/b\"".toList),
           ("b/y.go".toList, "\"fmt\"".toList),
           ("b/y.go".toList, "\"github.com/u/r/b\"".toList)] = some a1 ∧
        ∀ k v, a1.stats.lookup k = some v → 0 ≤ v.FanIn ∧ 0 ≤ v.FanOut :=
  ⟨(records_only_grow sampleEnv "/go/src/github.com/u/r".toList rfl).1 sampleAnalyzer
      "a/x.go".toList "\"github.com/u/r/b\"".toList
      (fun _ => ⟨fun _ _ => (by decide : (0 : Int) < maxInt64), by decide⟩),
    (records_only_grow sampleEnv "/go/src/github.com/u/r".toList rfl).2 ".".toList _
      (by decide)⟩

/-! ## The states of the loop of `Clean` -/

namespace filepath

theorem length_withSeparator_ge (rooted : Bool) (buf : GoString) :
    buf.length ≤ (withSeparator rooted buf).length := by
  unfold withSeparator
  split <;> simp

theorem CleanState.dotdot_le {rooted : Bool} {buf : GoString} {dd : Nat}
    (h : CleanState rooted buf dd) : dd ≤ buf.length := by
  induction h with
  | rootedInit _ => simp
  | relInit _ => simp
  | dots _ _ _ => exact le_rfl
  | @push b _ e _ _ ih =>
    have := length_withSeparator_ge rooted b
    simp only [List.length_append]
    omega

theorem CleanState.rooted_inv {buf : GoString} {dd : Nat} (h : CleanState true buf dd) :
    dd = 1 ∧ buf.head? = some '/' := by
  induction h with
  | rootedInit _ => exact ⟨rfl, rfl⟩
  | relInit h0 => cases h0
  | dots h0 _ _ => cases h0
  | @push b _ e _ _ ih =>
    obtain ⟨hd, hh⟩ := ih
    refine ⟨hd, ?_⟩
    cases b with
    | nil => simp at hh
    | cons x xs => unfold withSeparator; split <;> simpa using hh

theorem plainName_head {e : GoString} (he : plainName e = true) : e.head? ≠ some '/' := by
  obtain ⟨h0, hs, _, _⟩ := plainName_iff.1 he
  cases e with
  | nil => simp
  | cons c t =>
    intro hc
    simp at hc
    exact hs (hc ▸ List.mem_cons_self c t)

theorem CleanState.rel_head {buf : GoString} {dd : Nat} (h : CleanState false buf dd) :
    buf.head? ≠ some '/' := by
  induction h with
  | rootedInit h0 => cases h0
  | relInit _ => simp
  | @dots b _ _ ih =>
    cases b with
    | nil => simp
    | cons x xs => simpa using ih
  | @push b _ e _ he ih =>
    cases b with
    | nil => simpa [withSeparator] using plainName_head he
    | cons x xs => unfold withSeparator; split <;> simpa using ih

/-- A state whose buffer reaches beyond `dotdot` was extended by a real path
element. -/
theorem CleanState.exists_push {rooted : Bool} {buf : GoString} {dd : Nat}
    (h : CleanState rooted buf dd) (hlt : dd < buf.length) :
    ∃ b e, CleanState rooted b dd ∧ plainName e = true ∧ buf = withSeparator rooted b ++ e := by
  cases h with
  | rootedInit _ => simp at hlt
  | relInit _ => simp at hlt
  | dots _ _ => exact absurd hlt (lt_irrefl _)
  | push hb he => exact ⟨_, _, hb, he, rfl⟩

theorem CleanState.rootedInv {rooted : Bool} {buf : GoString} {dd : Nat}
    (h : CleanState rooted buf dd) : RootedInv rooted buf dd := by
  intro hr
  subst hr
  obtain ⟨hd, hh⟩ := h.rooted_inv
  exact ⟨hh, by omega⟩

/-- The backtracking loop stops at `target` when it starts at or above it, no
separator lies in between, and `target` is `dotdot` or holds a separator. -/
theorem backtrack_stop (buf : GoString) (dd target : Nat) (hdd : dd ≤ target)
    (hstop : dd = target ∨ IsPathSeparator (buf.getD target Separator) = true) :
    ∀ w, target ≤ w →
      (∀ i, target < i → i ≤ w → IsPathSeparator (buf.getD i Separator) = false) →
      backtrack buf dd w = target
  | 0, hw, _ => by
    have : target = 0 := by omega
    rw [this]; rfl
  | w + 1, hw, hno => by
    unfold backtrack
    rcases Nat.lt_or_ge target (w + 1) with hlt | hge
    · have h1 : dd < w + 1 := by omega
      have h2 := hno (w + 1) hlt le_rfl
      simp only [h1, h2, decide_True, Bool.not_false, Bool.and_self, if_true]
      exact backtrack_stop buf dd target hdd hstop w (by omega)
        (fun i hi hiw => hno i hi (by omega))
    · have heq : target = w + 1 := by omega
      subst heq
      rcases hstop with h | h
      · have : ¬ dd < w + 1 := by omega
        simp [this]
      · rw [h]
        simp

theorem getD_plain_not_separator {e : GoString} (he : plainName e = true) (pre : GoString)
    (i : Nat) (h1 : pre.length ≤ i) (h2 : i < (pre ++ e).length) :
    IsPathSeparator ((pre ++ e).getD i Separator) = false := by
  obtain ⟨_, hs, _, _⟩ := plainName_iff.1 he
  have hi : i - pre.length < e.length := by
    simp only [List.length_append] at h2
    omega
  rw [List.getD_append_right _ _ _ _ h1, List.getD_eq_getElem _ _ hi]
  have hmem : e[i - pre.length] ∈ e := List.getElem_mem hi
  have : e[i - pre.length] ≠ '/' := fun h => hs (h ▸ hmem)
  simpa [IsPathSeparator, Separator] using this

/-- Backtracking from a state that was extended by a real path element gives
back the state before the extension. -/
theorem backtrack_push {rooted : Bool} {b e : GoString} {dd : Nat}
    (hb : CleanState rooted b dd) (he : plainName e = true) :
    (withSeparator rooted b ++ e).take
        (backtrack (withSeparator rooted b ++ e) dd ((withSeparator rooted b ++ e).length - 1)) =
      b := by
  have hdd := hb.dotdot_le
  have he0 : 0 < e.length := List.length_pos.2 (plainName_iff.1 he).1
  have hcases : (withSeparator rooted b = b ∧ dd = b.length) ∨
      withSeparator rooted b = b ++ [Separator] := by
    unfold withSeparator
    split
    · exact Or.inr rfl
    · rename_i hc
      left
      refine ⟨rfl, ?_⟩
      cases rooted with
      | true =>
        have h1 : b.length = 1 := by simpa using hc
        have := hb.rooted_inv.1
        omega
      | false =>
        have h0 : b = [] := by simpa using hc
        rw [h0] at hdd ⊢
        simpa using hdd
  have hbt : backtrack (withSeparator rooted b ++ e) dd
      ((withSeparator rooted b ++ e).length - 1) = b.length := by
    apply backtrack_stop _ _ _ hdd
    · rcases hcases with ⟨_, h⟩ | h
      · exact Or.inl h
      · right
        rw [h, List.append_assoc, List.getD_append_right _ _ _ _ le_rfl]
        simp [IsPathSeparator]
    · have := length_withSeparator_ge rooted b
      simp only [List.length_append]
      omega
    · intro i hi hiw
      apply getD_plain_not_separator he
      · rcases hcases with ⟨h, _⟩ | h
        · rw [h]; omega
        · rw [h]; simp; omega
      · have : 0 < (withSeparator rooted b ++ e).length := by
          simp only [List.length_append]; omega
        omega
  rw [hbt]
  rcases hcases with ⟨h, _⟩ | h
  · rw [h, List.take_left]
  · rw [h, List.append_assoc, List.take_left]

theorem plainName_takeWhile {c : Char} {t : GoString} (hc : IsPathSeparator c = false)
    (h : c ≠ '.' ∨ ∃ b l, t = b :: l ∧ IsPathSeparator b = false ∧
      (b ≠ '.' ∨ ∃ b2 l2, l = b2 :: l2 ∧ IsPathSeparator b2 = false)) :
    plainName ((c :: t).takeWhile (fun x => !IsPathSeparator x)) = true := by
  have hc1 : (!IsPathSeparator c) = true := by simp [hc]
  rw [plainName_iff, List.takeWhile_cons, if_pos hc1]
  refine ⟨by simp, ?_, ?_, ?_⟩
  · intro hmem
    rcases List.mem_cons.1 hmem with h1 | h1
    · rw [← h1] at hc; simp [IsPathSeparator, Separator] at hc
    · have := List.mem_takeWhile_imp h1
      simp [IsPathSeparator, Separator] at this
  · rcases h with h | ⟨b, l, rfl, hb, _⟩
    · intro heq
      exact h (List.cons.inj heq).1
    · have hb1 : (!IsPathSeparator b) = true := by simp [hb]
      rw [List.takeWhile_cons, if_pos hb1]
      simp
  · rcases h with h | ⟨b, l, rfl, hb, h2⟩
    · intro heq
      exact h (List.cons.inj heq).1
    · have hb1 : (!IsPathSeparator b) = true := by simp [hb]
      rw [List.takeWhile_cons, if_pos hb1]
      rcases h2 with h2 | ⟨b2, l2, rfl, hb2⟩
      · intro heq
        exact h2 (List.cons.inj (List.cons.inj heq).2).1
      · have hb21 : (!IsPathSeparator b2) = true := by simp [hb2]
        rw [List.takeWhile_cons, if_pos hb21]
        simp

/-- One iteration of the loop of `Clean` on a slash-ended prefix followed by
anything keeps the state among the states of `CleanState`. -/
theorem cleanLoop_step_clean (rooted : Bool) {c : Char} {t buf : GoString} {dd : Nat}
    (hq : SlashEnded (c :: t)) (hinv : CleanState rooted buf dd) :
    ∃ q1 buf1 dd1, q1.length ≤ t.length ∧ SlashEnded q1 ∧ CleanState rooted buf1 dd1 ∧
      ∀ (f : GoString) (k : Nat),
        cleanLoop rooted (k + 1) (c :: t ++ f) buf dd = cleanLoop rooted k (q1 ++ f) buf1 dd1 := by
  have hdefault : IsPathSeparator c = false →
      plainName ((c :: t).takeWhile (fun x => !IsPathSeparator x)) = true →
      (∀ f : GoString, (c == '.' && ((t ++ f).isEmpty ||
        IsPathSeparator ((t ++ f).headD Separator))) = false) →
      (∀ f : GoString, (c == '.' && (t ++ f).head? == some '.' &&
        ((t ++ f).tail.isEmpty || IsPathSeparator ((t ++ f).tail.headD Separator))) = false) →
      ∃ q1 buf1 dd1, q1.length ≤ t.length ∧ SlashEnded q1 ∧ CleanState rooted buf1 dd1 ∧
        ∀ (f : GoString) (k : Nat),
          cleanLoop rooted (k + 1) (c :: t ++ f) buf dd =
            cleanLoop rooted k (q1 ++ f) buf1 dd1 := by
    intro hc hplain c2 c3
    have hmem : ∃ x ∈ c :: t, (fun x => !IsPathSeparator x) x = false :=
      ⟨'/', hq.mem_slash (List.cons_ne_nil c t), by simp [IsPathSeparator, Separator]⟩
    refine ⟨(c :: t).dropWhile (fun x => !IsPathSeparator x),
      withSeparator rooted buf ++ (c :: t).takeWhile (fun x => !IsPathSeparator x), dd,
      ?_, hq.dropWhile _, CleanState.push hinv hplain, ?_⟩
    · rw [List.dropWhile_cons, hc]
      simpa using (List.dropWhile_sublist (fun x => !IsPathSeparator x) (l := t)).length_le
    · intro f k
      obtain ⟨h1, h2⟩ := takeWhile_append_of_mem (fun x => !IsPathSeparator x) f (c :: t) hmem
      rw [List.cons_append, cleanLoop_succ_cons, hc, c2 f, c3 f, ← List.cons_append, h1, h2]
      simp [withSeparator]
  by_cases hc : c = '/'
  · subst hc
    exact ⟨t, buf, dd, le_rfl, hq.tail, hinv, fun f k => by
      rw [List.cons_append, cleanLoop_succ_cons]; simp [IsPathSeparator, Separator]⟩
  · have hcs : IsPathSeparator c = false := by simpa [IsPathSeparator, Separator] using hc
    obtain ⟨b, l, rfl⟩ := hq.exists_cons hc
    by_cases hdot : c = '.'
    · subst hdot
      by_cases hb : b = '/'
      · subst hb
        exact ⟨'/' :: l, buf, dd, le_rfl, hq.tail, hinv, fun f k => by
          rw [List.cons_append, cleanLoop_succ_cons]; simp [IsPathSeparator, Separator]⟩
      · have hbs : IsPathSeparator b = false := by simpa [IsPathSeparator, Separator] using hb
        by_cases hb2 : b = '.'
        · subst hb2
          obtain ⟨b2, l2, rfl⟩ := hq.tail.exists_cons hb
          by_cases hb3 : b2 = '/'
          · subst hb3
            have hstep : ∀ (f : GoString) (k : Nat),
                cleanLoop rooted (k + 1) ('.' :: '.' :: '/' :: l2 ++ f) buf dd =
                  if dd < buf.length then
                    cleanLoop rooted k ('/' :: l2 ++ f)
                      (buf.take (backtrack buf dd (buf.length - 1))) dd
                  else if !rooted then
                    cleanLoop rooted k ('/' :: l2 ++ f)
                      ((if 0 < buf.length then buf ++ [Separator] else buf) ++ ['.', '.'])
                      ((if 0 < buf.length then buf ++ [Separator] else buf) ++ ['.', '.']).length
                  else cleanLoop rooted k ('/' :: l2 ++ f) buf dd := by
              intro f k
              rw [List.cons_append, cleanLoop_succ_cons]
              simp [IsPathSeparator, Separator]
            by_cases hdd : dd < buf.length
            · obtain ⟨b0, e, hb0, he, rfl⟩ := hinv.exists_push hdd
              exact ⟨'/' :: l2, b0, dd, by simp, hq.tail.tail, hb0, fun f k => by
                rw [hstep, if_pos hdd, backtrack_push hb0 he]⟩
            · have hlen : dd = buf.length := le_antisymm hinv.dotdot_le (not_lt.1 hdd)
              cases hr : rooted with
              | false =>
                refine ⟨'/' :: l2, (if 0 < buf.length then buf ++ [Separator] else buf) ++ ['.', '.'],
                  ((if 0 < buf.length then buf ++ [Separator] else buf) ++ ['.', '.']).length,
                  by simp, hq.tail.tail, ?_, fun f k => ?_⟩
                · rw [hlen, hr] at hinv
                  exact CleanState.dots rfl hinv
                · rw [← hr, hstep, if_neg hdd, hr]
                  simp
              | true =>
                refine ⟨'/' :: l2, buf, dd, by simp, hq.tail.tail, hr ▸ hinv, fun f k => ?_⟩
                rw [← hr, hstep, if_neg hdd, hr]
                simp
          · have hb3s : IsPathSeparator b2 = false := by
              simpa [IsPathSeparator, Separator] using hb3
            exact hdefault hcs
              (plainName_takeWhile hcs (Or.inr ⟨'.', _, rfl, hbs, Or.inr ⟨b2, l2, rfl, hb3s⟩⟩))
              (fun f => by simp [hbs]) (fun f => by simp [hb3s])
        · exact hdefault hcs (plainName_takeWhile hcs (Or.inr ⟨b, l, rfl, hbs, Or.inl hb2⟩))
            (fun f => by simp [hbs]) (fun f => by simp [hb2])
    · exact hdefault hcs (plainName_takeWhile hcs (Or.inl hdot))
        (fun f => by simp [hdot]) (fun f => by simp [hdot])

/-- The loop of `Clean` on a slash-ended prefix `q` followed by anything: after
`q` the loop is in a state of `CleanState` that depends on `q` only. -/
theorem cleanLoop_prefix (rooted : Bool) :
    ∀ (n : Nat) (q buf : GoString) (dd : Nat), q.length ≤ n → SlashEnded q →
      CleanState rooted buf dd →
      ∃ buf1 dd1, CleanState rooted buf1 dd1 ∧ ∀ (x : GoString) (fuel : Nat),
        (q ++ x).length ≤ fuel →
        cleanLoop rooted fuel (q ++ x) buf dd = cleanLoop rooted x.length x buf1 dd1
  | n, [], buf, dd, _, _, hinv =>
    ⟨buf, dd, hinv, fun x fuel hfuel =>
      cleanLoop_bound_irrelevant rooted fuel x.length x buf dd (by simpa using hfuel) le_rfl⟩
  | 0, _ :: _, _, _, hn, _, _ => by simp at hn
  | n + 1, c :: t, buf, dd, hn, hq, hinv => by
    obtain ⟨q1, buf1, dd1, hlen, hq1, hinv1, hstep⟩ := cleanLoop_step_clean rooted hq hinv
    obtain ⟨buf2, dd2, hinv2, hrec⟩ := cleanLoop_prefix rooted n q1 buf1 dd1
      (by simp at hn; omega) hq1 hinv1
    refine ⟨buf2, dd2, hinv2, fun x fuel hfuel => ?_⟩
    match fuel, hfuel with
    | k + 1, hfuel =>
      rw [hstep x k]
      apply hrec x k
      simp at hfuel ⊢
      omega

theorem takeWhile_append_stop (p : Char → Bool) {z : Char} (hz : p z = false) (x : GoString) :
    ∀ e : GoString, (∀ y ∈ e, p y = true) →
      (e ++ z :: x).takeWhile p = e ∧ (e ++ z :: x).dropWhile p = z :: x
  | [], _ => by simp [List.takeWhile_cons, List.dropWhile_cons, hz]
  | c :: t, h => by
    have hc : p c = true := h c (List.mem_cons_self c t)
    obtain ⟨h1, h2⟩ := takeWhile_append_stop p hz x t
      (fun y hy => h y (List.mem_cons_of_mem c hy))
    simp [List.takeWhile_cons, List.dropWhile_cons, hc, h1, h2]

/-- The loop of `Clean` on a plain element that is followed by a separator: the
element is appended to the buffer. -/
theorem cleanLoop_plain_slash (rooted : Bool) {e : GoString} (he : plainName e = true)
    (x : GoString) (k : Nat) (buf : GoString) (dd : Nat) :
    cleanLoop rooted (k + 1) (e ++ '/' :: x) buf dd =
      cleanLoop rooted k ('/' :: x) (withSeparator rooted buf ++ e) dd := by
  obtain ⟨h0, hs, h1, h2⟩ := plainName_iff.1 he
  have hall : ∀ y ∈ e, (fun y => !IsPathSeparator y) y = true := by
    intro y hy
    have : y ≠ '/' := fun h => hs (h ▸ hy)
    simpa [IsPathSeparator, Separator] using this
  obtain ⟨htw, hdw⟩ := takeWhile_append_stop (fun y => !IsPathSeparator y)
    (z := '/') (by simp [IsPathSeparator, Separator]) x e hall
  match e, h0 with
  | c :: t, _ =>
    have hc : IsPathSeparator c = false := by
      have := hall c (List.mem_cons_self c t)
      simpa using this
    have c2 : (c == '.' && ((t ++ '/' :: x).isEmpty ||
        IsPathSeparator ((t ++ '/' :: x).headD Separator))) = false := by
      cases t with
      | nil =>
        have : c ≠ '.' := fun h => h1 (by rw [h])
        simp [this]
      | cons b l =>
        have hb := hall b (List.mem_cons_of_mem c (List.mem_cons_self b l))
        simp at hb
        simp [hb]
    have c3 : (c == '.' && (t ++ '/' :: x).head? == some '.' &&
        ((t ++ '/' :: x).tail.isEmpty ||
          IsPathSeparator ((t ++ '/' :: x).tail.headD Separator))) = false := by
      match t with
      | [] => simp
      | [b] =>
        have : ¬ (c = '.' ∧ b = '.') := fun h => h2 (by rw [h.1, h.2])
        simpa [IsPathSeparator, Separator] using this
      | b :: b2 :: l =>
        have hb := hall b2 (List.mem_cons_of_mem c (List.mem_cons_of_mem b (List.mem_cons_self b2 l)))
        simp at hb
        simp [hb]
    rw [List.cons_append, cleanLoop_succ_cons, hc, c2, c3, ← List.cons_append, htw, hdw]
    simp [withSeparator]

theorem withSeparator_of_cond {rooted : Bool} {l : GoString}
    (h : ((rooted && l.length != 1) || (!rooted && l.length != 0)) = true) :
    withSeparator rooted l = l ++ [Separator] := by
  unfold withSeparator
  rw [if_pos h]

theorem withSeparator_rel (buf : GoString) :
    withSeparator false buf = if 0 < buf.length then buf ++ [Separator] else buf := by
  unfold withSeparator
  cases buf <;> simp

/-- The buffer of a state extended by a real path element gets a separator
before the next element. -/
theorem withSeparator_push {rooted : Bool} {b e : GoString} {dd : Nat}
    (hb : CleanState rooted b dd) (he : plainName e = true) :
    withSeparator rooted (withSeparator rooted b ++ e) =
      withSeparator rooted b ++ e ++ [Separator] := by
  have he0 : 0 < e.length := List.length_pos.2 (plainName_iff.1 he).1
  have hlen := length_withSeparator_ge rooted b
  cases rooted with
  | false =>
    rw [withSeparator_rel (withSeparator false b ++ e), if_pos (by simp; omega)]
  | true =>
    have hb1 : 1 ≤ b.length := by
      have := hb.rooted_inv.2
      cases b with
      | nil => simp at this
      | cons _ _ => simp
    have hne : (withSeparator true b ++ e).length ≠ 1 := by simp; omega
    exact withSeparator_of_cond (by simpa using hne)

theorem withSeparator_ne_nil_of_rooted {b : GoString} {dd : Nat} (hb : CleanState true b dd) :
    withSeparator true b ≠ [] := by
  have := hb.rooted_inv.2
  have hlen := length_withSeparator_ge true b
  cases b with
  | nil => simp at this
  | cons _ _ =>
    intro h
    rw [h] at hlen
    simp at hlen

theorem loopInput_append {rooted : Bool} {b : GoString} {dd : Nat}
    (hb : CleanState rooted b dd) (x : GoString) :
    loopInput rooted (withSeparator rooted b ++ x) = loopInput rooted (withSeparator rooted b) ++ x := by
  cases rooted with
  | false => rfl
  | true =>
    simp only [loopInput, if_true]
    exact List.tail_append_of_ne_nil (withSeparator_ne_nil_of_rooted hb)

theorem cleanLoop_skip_slash (rooted : Bool) (k : Nat) (x buf : GoString) (dd : Nat) :
    cleanLoop rooted (k + 1) ('/' :: x) buf dd = cleanLoop rooted k x buf dd := by
  rw [cleanLoop_succ_cons]
  simp [IsPathSeparator, Separator]

theorem cleanLoop_dotdot_rel (b x : GoString) :
    cleanLoop false (x.length + 3) ('.' :: '.' :: '/' :: x) b b.length =
      cleanLoop false x.length x
        ((if 0 < b.length then b ++ [Separator] else b) ++ ['.', '.'])
        ((if 0 < b.length then b ++ [Separator] else b) ++ ['.', '.']).length := by
  rw [show x.length + 3 = (x.length + 2) + 1 from rfl, cleanLoop_succ_cons]
  simp only [IsPathSeparator, Separator]
  simp only [lt_irrefl, if_false]
  have h1 : (('.' : Char) == '/') = false := by decide
  have h2 : (('/' : Char) == '/') = true := by decide
  simp only [h1, h2, List.isEmpty_cons, List.headD_cons, List.head?_cons, List.tail_cons,
    Bool.false_eq_true, if_false, beq_self_eq_true, Bool.or_false, Bool.and_false, Bool.and_true,
    Bool.or_true, Bool.and_self, if_true, Bool.not_false]
  rw [show x.length + 2 = (x.length + 1) + 1 from rfl, cleanLoop_skip_slash]
  exact cleanLoop_bound_irrelevant false _ _ _ _ _ (by omega) le_rfl

/-- The loop of `Clean`, run from its initial state on the buffer of a state
(with the separator that precedes the next element), is back in that state. -/
theorem cleanLoop_replay {rooted : Bool} {buf : GoString} {dd : Nat}
    (h : CleanState rooted buf dd) :
    ∀ (x : GoString) (fuel : Nat), (withSeparator rooted buf ++ x).length ≤ fuel →
      cleanLoop rooted fuel (loopInput rooted (withSeparator rooted buf) ++ x)
          (initBuf rooted) (initDotdot rooted) =
        cleanLoop rooted x.length x buf dd := by
  induction h with
  | rootedInit hr =>
    intro x fuel hfuel
    subst hr
    have : loopInput true (withSeparator true [Separator]) = [] := by
      simp [loopInput, withSeparator]
    rw [this]
    exact cleanLoop_bound_irrelevant true fuel x.length _ _ _
      (by simp at hfuel ⊢; omega) le_rfl
  | relInit hr =>
    intro x fuel hfuel
    subst hr
    have : loopInput false (withSeparator false []) = [] := by
      simp [loopInput, withSeparator]
    rw [this]
    exact cleanLoop_bound_irrelevant false fuel x.length _ _ _
      (by simp [withSeparator] at hfuel ⊢; omega) le_rfl
  | @dots b hr hb ih =>
    intro x fuel hfuel
    subst hr
    have hW : withSeparator false
        ((if 0 < b.length then b ++ [Separator] else b) ++ ['.', '.']) =
        withSeparator false b ++ ('.' :: '.' :: [Separator]) := by
      rw [withSeparator_rel, if_pos (by simp), withSeparator_rel b]
      simp
    have hin : loopInput false (withSeparator false
        ((if 0 < b.length then b ++ [Separator] else b) ++ ['.', '.'])) ++ x =
        loopInput false (withSeparator false b) ++ ('.' :: '.' :: '/' :: x) := by
      rw [hW]
      simp [loopInput, Separator]
    rw [hin, ih ('.' :: '.' :: '/' :: x) fuel (by
      rw [hW] at hfuel
      simp at hfuel ⊢
      omega)]
    have e1 : ('.' :: '.' :: '/' :: x).length = x.length + 3 := by simp
    rw [e1, cleanLoop_dotdot_rel]
  | @push b d e hb he ih =>
    intro x fuel hfuel
    have hW := withSeparator_push hb he
    have hin : loopInput rooted (withSeparator rooted (withSeparator rooted b ++ e)) ++ x =
        loopInput rooted (withSeparator rooted b) ++ (e ++ '/' :: x) := by
      rw [hW, List.append_assoc, loopInput_append hb]
      simp [Separator]
    rw [hin, ih (e ++ '/' :: x) fuel (by
      rw [hW] at hfuel
      simp at hfuel ⊢
      omega)]
    rw [cleanLoop_bound_irrelevant rooted (e ++ '/' :: x).length ((e ++ '/' :: x).length + 1)
      _ _ _ le_rfl (by omega), cleanLoop_plain_slash rooted he]
    have e1 : (e ++ '/' :: x).length = (e.length + x.length) + 1 := by simp; omega
    rw [e1, cleanLoop_skip_slash]
    exact cleanLoop_bound_irrelevant rooted _ _ _ _ _ (by omega) le_rfl

theorem Clean_eq_loop (c : Char) (t : GoString) :
    Clean (c :: t) =
      (fun out : GoString => if out.length = 0 then ['.'] else out)
        (cleanLoop (IsPathSeparator c) (c :: t).length (loopInput (IsPathSeparator c) (c :: t))
          (initBuf (IsPathSeparator c)) (initDotdot (IsPathSeparator c))) := by
  unfold Clean
  cases h : IsPathSeparator c <;> simp [loopInput, initBuf, initDotdot, h]

theorem finish_append_plain (y : GoString) {f : GoString} (hf : plainName f = true) :
    (fun out : GoString => if out.length = 0 then ['.'] else out) (y ++ f) = y ++ f := by
  have : f ≠ [] := (plainName_iff.1 hf).1
  have h0 : (y ++ f).length ≠ 0 := by
    cases f with
    | nil => exact absurd rfl this
    | cons a l => simp
  simp only [if_neg h0]

/-- A path that is the buffer of a state of the loop, followed by a plain
element, is left as it is by `Clean`. -/
theorem Clean_fixed {rooted : Bool} {buf : GoString} {dd : Nat}
    (h : CleanState rooted buf dd) {f : GoString} (hf : plainName f = true) :
    Clean (withSeparator rooted buf ++ f) = withSeparator rooted buf ++ f := by
  have hne : withSeparator rooted buf ++ f ≠ [] := by
    intro h0
    exact (plainName_iff.1 hf).1 (List.append_eq_nil.1 h0).2
  have hhead : ∀ (c : Char) (t : GoString), withSeparator rooted buf ++ f = c :: t →
      IsPathSeparator c = rooted := by
    intro c t hct
    have hh : (withSeparator rooted buf ++ f).head? = some c := by rw [hct]; rfl
    cases rooted with
    | true =>
      have h1 := h.rooted_inv.2
      have h2 : (withSeparator true buf).head? = some '/' := by
        cases buf with
        | nil => simp at h1
        | cons a l => unfold withSeparator; split <;> simpa using h1
      have h3 : (withSeparator true buf ++ f).head? = some '/' := by
        cases hw : withSeparator true buf with
        | nil => rw [hw] at h2; simp at h2
        | cons a l => rw [hw] at h2; simpa using h2
      rw [h3] at hh
      have : c = '/' := (Option.some.inj hh).symm
      rw [this]; rfl
    | false =>
      have h1 := h.rel_head
      have h3 : (withSeparator false buf ++ f).head? ≠ some '/' := by
        cases buf with
        | nil => simpa [withSeparator] using plainName_head hf
        | cons a l => unfold withSeparator; split <;> simpa using h1
      rw [hh] at h3
      have : c ≠ '/' := fun e => h3 (by rw [e])
      simpa [IsPathSeparator, Separator] using this
  match hp : withSeparator rooted buf ++ f, hne with
  | c :: t, _ =>
    have hr := hhead c t hp
    rw [Clean_eq_loop, hr, ← hp, loopInput_append h,
      cleanLoop_replay h f _ le_rfl, cleanLoop_plain rooted hf _ le_rfl]
    exact finish_append_plain _ hf

/-- The function `Clean` on a non-empty slash-ended prefix followed by a plain
element, with or without one more separator in between: the result is the
buffer of a state of the loop, which depends on the prefix only, followed by
the element. -/
theorem Clean_prefix_state {c : Char} {t : GoString} (hq : SlashEnded (c :: t)) :
    ∃ rooted buf dd, CleanState rooted buf dd ∧ ∀ f, plainName f = true →
      Clean (c :: t ++ f) = withSeparator rooted buf ++ f ∧
      Clean (c :: t ++ '/' :: f) = withSeparator rooted buf ++ f := by
  have hinit : CleanState (IsPathSeparator c) (initBuf (IsPathSeparator c))
      (initDotdot (IsPathSeparator c)) := by
    cases h : IsPathSeparator c
    · exact CleanState.relInit rfl
    · exact CleanState.rootedInit rfl
  have hin : SlashEnded (loopInput (IsPathSeparator c) (c :: t)) := by
    cases h : IsPathSeparator c
    · exact hq
    · exact hq.tail
  have happ : ∀ x : GoString, loopInput (IsPathSeparator c) (c :: t ++ x) =
      loopInput (IsPathSeparator c) (c :: t) ++ x := by
    intro x
    cases h : IsPathSeparator c <;> simp [loopInput]
  have hlen : ∀ x : GoString,
      (loopInput (IsPathSeparator c) (c :: t) ++ x).length ≤ (c :: t ++ x).length := by
    intro x
    cases h : IsPathSeparator c <;> simp [loopInput]
  obtain ⟨buf1, dd1, hst, hrec⟩ := cleanLoop_prefix (IsPathSeparator c) _ _ _ _ le_rfl hin hinit
  refine ⟨IsPathSeparator c, buf1, dd1, hst, fun f hf => ⟨?_, ?_⟩⟩
  · rw [List.cons_append, Clean_eq_loop, ← List.cons_append, happ, hrec f _ (hlen f),
      cleanLoop_plain _ hf _ le_rfl]
    exact finish_append_plain _ hf
  · rw [List.cons_append, Clean_eq_loop, ← List.cons_append, happ, hrec ('/' :: f) _ (hlen _),
      show ('/' :: f).length = f.length + 1 from rfl, cleanLoop_skip_slash,
      cleanLoop_plain _ hf _ le_rfl]
    exact finish_append_plain _ hf

end filepath

/-! ## The vendor folder -/

namespace strings

theorem Contains_prefix (v y : GoString) : Contains (v ++ y) v = true := by
  have hp : v.isPrefixOf (v ++ y) = true := List.isPrefixOf_iff_prefix.2 (List.prefix_append v y)
  cases h : v ++ y with
  | nil =>
    rw [h] at hp
    simpa [Contains] using hp
  | cons c t =>
    rw [h] at hp
    simp [Contains, hp]

theorem Contains_append_left (v : GoString) :
    ∀ x y : GoString, Contains (x ++ (v ++ y)) v = true
  | [], y => Contains_prefix v y
  | c :: t, y => by
    have := Contains_append_left v t y
    simp [Contains, this]

end strings

/-- The path of an entry below a clean path: the names of the directory entries
are appended, each after a separator, and the path stays a buffer of a state of
the loop of `Clean` followed by a plain element. -/
theorem walkPath_below {rooted : Bool} :
    ∀ (names : List GoString) (b e : GoString) (dd : Nat),
      filepath.CleanState rooted b dd → plainName e = true →
      (∀ n ∈ names, plainName n = true) →
      ∃ b1 e1 rest, filepath.CleanState rooted b1 dd ∧ plainName e1 = true ∧
        walkPath (filepath.withSeparator rooted b ++ e) names =
          filepath.withSeparator rooted b1 ++ e1 ∧
        walkPath (filepath.withSeparator rooted b ++ e) names =
          filepath.withSeparator rooted b ++ e ++ rest
  | [], b, e, _, hb, he, _ => ⟨b, e, [], hb, he, rfl, by simp [walkPath]⟩
  | n :: ns, b, e, dd, hb, he, hn => by
    have hn1 : plainName n = true := hn n (List.mem_cons_self n ns)
    have hpush := filepath.CleanState.push hb he
    have hne : filepath.withSeparator rooted b ++ e ≠ [] := by
      intro h0
      exact (plainName_iff.1 he).1 (List.append_eq_nil.1 h0).2
    have hjoin : filepath.Join [filepath.withSeparator rooted b ++ e, n] =
        filepath.withSeparator rooted (filepath.withSeparator rooted b ++ e) ++ n := by
      have h1 : filepath.Join [filepath.withSeparator rooted b ++ e, n] =
          filepath.Clean (filepath.withSeparator rooted (filepath.withSeparator rooted b ++ e)
            ++ n) := by
        rw [filepath.withSeparator_push hb he]
        simp [filepath.Join, strings.Join, hne]
      rw [h1, filepath.Clean_fixed hpush hn1]
    obtain ⟨b1, e1, rest, hb1, he1, h1, h2⟩ := walkPath_below ns _ n dd hpush hn1
      (fun m hm => hn m (List.mem_cons_of_mem n hm))
    refine ⟨b1, e1, [filepath.Separator] ++ n ++ rest, hb1, he1, ?_, ?_⟩
    · simp only [walkPath, List.foldl_cons] at h1 ⊢
      rw [hjoin]
      exact h1
    · simp only [walkPath, List.foldl_cons] at h2 ⊢
      rw [hjoin, h2, filepath.withSeparator_push hb he]
      simp

/-- C13: for every repository root and every entry that `filepath.Walk` reaches
below the root's `vendor` directory (at any depth), `isVendor` is true on the
path of the entry, so the walk function of `analyzeDir` returns without calling
`analyzeFile` and leaves the analyzer as it was. -/
theorem isVendor_below_vendor (a : Analyzer) (names : List GoString)
    (hnames : ∀ n ∈ names, plainName n = true) :
    a.isVendor (walkPath (a.repo ++ [filepath.Separator]) ("vendor".toList :: names)) = true ∧
      ∀ (env : Env) (fs : FileSystem) (info : FileInfo),
        a.walkFn env fs (WalkEntry.found
          (walkPath (a.repo ++ [filepath.Separator]) ("vendor".toList :: names)) info) =
          Except.ok (a, false) := by
  have hv : plainName "vendor".toList = true := by decide
  have hq : SlashEnded (a.repo ++ [filepath.Separator]) := slashEnded_concat a.repo
  have hmain : a.isVendor
      (walkPath (a.repo ++ [filepath.Separator]) ("vendor".toList :: names)) = true := by
    match hr : a.repo ++ [filepath.Separator], hq with
    | [], _ => simp at hr
    | c :: t, hq =>
      obtain ⟨rooted, buf, dd, hst, hrec⟩ := filepath.Clean_prefix_state hq
      obtain ⟨h1, h2⟩ := hrec "vendor".toList hv
      have hroot : filepath.Join [c :: t, "vendor".toList] =
          filepath.withSeparator rooted buf ++ "vendor".toList := by
        rw [← h2]
        simp [filepath.Join, strings.Join, filepath.Separator]
      obtain ⟨b1, e1, rest, hb1, he1, hw1, hw2⟩ := walkPath_below names buf "vendor".toList dd
        hst hv hnames
      have hpath : walkPath (c :: t) ("vendor".toList :: names) =
          walkPath (filepath.withSeparator rooted buf ++ "vendor".toList) names := by
        simp only [walkPath, List.foldl_cons, hroot]
      have hclean : filepath.Clean (walkPath (c :: t) ("vendor".toList :: names)) =
          filepath.withSeparator rooted buf ++ "vendor".toList ++ rest := by
        rw [hpath, hw1, filepath.Clean_fixed hb1 he1, ← hw1, hw2]
      unfold Analyzer.isVendor
      simp only [filepath.ToSlash, hclean]
      by_cases hrepo : a.repo = []
      · have h3 : filepath.Clean (filepath.Join [a.repo, "vendor".toList]) = "vendor".toList := by
          rw [hrepo]; decide
        rw [h3, List.append_assoc]
        exact strings.Contains_append_left _ _ _
      · have h3 : filepath.Join [a.repo, "vendor".toList] =
            filepath.withSeparator rooted buf ++ "vendor".toList := by
          rw [← h1, ← hr]
          simp [filepath.Join, strings.Join, hrepo]
        rw [h3, filepath.Clean_fixed hst hv]
        exact strings.Contains_prefix _ _
  refine ⟨hmain, fun env fs info => ?_⟩
  simp only [Analyzer.walkFn, hmain, Bool.not_true, Bool.and_false, Bool.false_and,
    Bool.false_eq_true, if_false]

/-- The statement of C13 for the repository `.` and the entry
`vendor/x/y.go`. -/
theorem isVendor_below_vendor_witness :
    sampleAnalyzer.isVendor (walkPath (sampleAnalyzer.repo ++ [filepath.Separator])
        ("vendor".toList :: ["x".toList, "y.go".toList])) = true ∧
      ∀ (env : Env) (fs : FileSystem) (info : FileInfo),
        sampleAnalyzer.walkFn env fs (WalkEntry.found
          (walkPath (sampleAnalyzer.repo ++ [filepath.Separator])
            ("vendor".toList :: ["x".toList, "y.go".toList])) info) =
          Except.ok (sampleAnalyzer, false) :=
  isVendor_below_vendor sampleAnalyzer ["x".toList, "y.go".toList] (by decide)

/-- C14: in the repository `.` the regular file `cmd/vendoring/main.go` does not
lie under `./vendor`, yet `isVendor` is true on it because its path contains the
text `vendor`; the walk function of `analyzeDir` skips it, and the run reports
nothing although the file has a local dependency. -/
theorem isVendor_substring_excludes :
    filepath.Clean (filepath.Join [sampleAnalyzer.repo, "vendor".toList]) = "vendor".toList ∧
      walkPath (sampleAnalyzer.repo ++ [filepath.Separator])
        ["cmd".toList, "vendoring".toList, "main.go".toList] =
        "cmd/vendoring/main.go".toList ∧
      sampleAnalyzer.isVendor "cmd/vendoring/main.go".toList = true ∧
      sampleAnalyzer.walkFn sampleEnv vendoringFs
        (WalkEntry.found "cmd/vendoring/main.go".toList ⟨false⟩) =
        Except.ok (sampleAnalyzer, false) ∧
      main sampleEnv vendoringFs ["go-instabl".toList, ".".toList] =
        RunResult.reported ['\n'] := by
  refine ⟨by decide, by decide, by decide, rfl, by decide⟩

end GoInstabl
